import Mathlib

/-
  Verification of the core table/series logic of `backend/main.py`
  (an in-memory tabular-data editing service built on pandas).

  Shallow-embedding conventions used throughout this file:
  * pandas `DataFrame`s indexed by series name are modelled by `Table`:
    an ordered list of column names plus ordered rows, each row a pair of
    its index label and a list of `Option ℚ` cells aligned with the
    column names (`none` models NaN / a missing value).
  * `pd.to_datetime(_, errors="coerce")` is modelled by taking the already
    coerced value (`Option` of a date / a parse-success flag) as input.
  * Python `dict`s are modelled by association lists with Python's
    assignment semantics (replace in place when the key is present,
    append otherwise).
  * Python truthiness of `Optional[str]` values (`None` and `""` are
    falsy) is modelled explicitly where the source branches on it.
-/

namespace ImpulseOverlay

/-! ## Column Range Engine: `_merge_columns` -/

/-- Shallow embedding of `_merge_columns` (src/backend/main.py:300-307).
The source keeps a `seen` set next to the accumulated `merged` list; since
`seen` always contains exactly the members of `merged`, the membership test
is made directly on the accumulated list here. -/
def mergeColumns (base additions : List String) : List String :=
  additions.foldl (fun merged label => if label ∈ merged then merged else merged ++ [label]) base

/-- The elements of `l` whose value is not in `seen`, first occurrence only,
in order of first appearance.  This renders the spec sentence "every element
of `additions` not already present in `base`, preserving the first-seen
relative order". -/
def keepFirsts (seen : List String) : List String → List String
  | [] => []
  | l :: rest => if l ∈ seen then keepFirsts seen rest else l :: keepFirsts (l :: seen) rest

theorem keepFirsts_congr : ∀ (l : List String) (s t : List String),
    (∀ x, x ∈ s ↔ x ∈ t) → keepFirsts s l = keepFirsts t l := by
  intro l
  induction l with
  | nil => intro s t _; rfl
  | cons a rest ih =>
    intro s t h
    by_cases ha : a ∈ s
    · have ha' : a ∈ t := (h a).mp ha
      simp [keepFirsts, ha, ha', ih s t h]
    · have ha' : a ∉ t := fun hx => ha ((h a).mpr hx)
      have hcons : ∀ x, x ∈ a :: s ↔ x ∈ a :: t := by
        intro x
        simp only [List.mem_cons]
        exact or_congr Iff.rfl (h x)
      simp [keepFirsts, ha, ha', ih (a :: s) (a :: t) hcons]

theorem mergeColumns_eq_append : ∀ (adds base : List String),
    mergeColumns base adds = base ++ keepFirsts base adds := by
  intro adds
  induction adds with
  | nil => intro base; simp [mergeColumns, keepFirsts]
  | cons l rest ih =>
    intro base
    by_cases hl : l ∈ base
    · have : mergeColumns base (l :: rest) = mergeColumns base rest := by
        simp [mergeColumns, List.foldl_cons, hl]
      rw [this, ih base]
      simp [keepFirsts, hl]
    · have : mergeColumns base (l :: rest) = mergeColumns (base ++ [l]) rest := by
        simp [mergeColumns, List.foldl_cons, hl]
      rw [this, ih (base ++ [l])]
      have hmem : ∀ x, x ∈ base ++ [l] ↔ x ∈ l :: base := by
        intro x
        simp [List.mem_append, List.mem_cons, or_comm]
      rw [keepFirsts_congr rest (base ++ [l]) (l :: base) hmem]
      simp [keepFirsts, hl]

theorem mergeColumns_of_subset : ∀ (adds base : List String),
    (∀ x ∈ adds, x ∈ base) → mergeColumns base adds = base := by
  intro adds
  induction adds with
  | nil => intro base _; rfl
  | cons l rest ih =>
    intro base h
    have hl : l ∈ base := h l (List.mem_cons_self l rest)
    have : mergeColumns base (l :: rest) = mergeColumns base rest := by
      simp [mergeColumns, List.foldl_cons, hl]
    rw [this]
    exact ih base (fun x hx => h x (List.mem_cons_of_mem l hx))

theorem keepFirsts_of_nodup : ∀ (l seen : List String),
    l.Nodup → (∀ x ∈ l, x ∉ seen) → keepFirsts seen l = l := by
  intro l
  induction l with
  | nil => intro seen _ _; rfl
  | cons a rest ih =>
    intro seen hnd hdisj
    have ha : a ∉ seen := hdisj a (List.mem_cons_self a rest)
    have hnd' : rest.Nodup := (List.nodup_cons.mp hnd).2
    have hnotin : a ∉ rest := (List.nodup_cons.mp hnd).1
    have hdisj' : ∀ x ∈ rest, x ∉ a :: seen := by
      intro x hx
      simp only [List.mem_cons, not_or]
      exact ⟨fun hxa => hnotin (hxa ▸ hx), hdisj x (List.mem_cons_of_mem a hx)⟩
    simp [keepFirsts, ha, ih (a :: seen) hnd' hdisj']

/-- C6 counterexample: `mergeColumns [] Y = Y` fails when `Y` contains a
duplicate, because the source deduplicates `additions` via its `seen` set. -/
theorem mergeColumns_dup_counterexample :
    mergeColumns [] ["a", "a"] = ["a"] ∧ mergeColumns [] ["a", "a"] ≠ ["a", "a"] := by
  constructor
  · rfl
  · intro h
    exact absurd (congrArg List.length h) (by decide)

/-- C6 (amended): `mergeColumns X X = X`; `mergeColumns [] Y = Y` for every
duplicate-free `Y` (in general the first occurrence of each new element of
`additions` is kept); and in general `mergeColumns base adds` is `base`
followed by the elements of `adds` not already present in `base`, first
occurrence only, in first-seen relative order. -/
theorem mergeColumns_spec :
    (∀ X : List String, mergeColumns X X = X) ∧
    (∀ Y : List String, Y.Nodup → mergeColumns [] Y = Y) ∧
    (∀ base adds : List String, mergeColumns base adds = base ++ keepFirsts base adds) := by
  refine ⟨?_, ?_, ?_⟩
  · intro X
    exact mergeColumns_of_subset X X (fun x hx => hx)
  · intro Y hY
    rw [mergeColumns_eq_append]
    simp [keepFirsts_of_nodup Y [] hY (by intro x _; simp)]
  · intro base adds
    exact mergeColumns_eq_append adds base

theorem mergeColumns_spec_witness : mergeColumns [] ["a", "b"] = ["a", "b"] :=
  mergeColumns_spec.2.1 ["a", "b"] (by decide)

/-! ## Column Range Engine: `_slice_columns` -/

/-- The single error raised by `_slice_columns`
(`HTTPException(400, "Unknown start/end label")`). -/
inductive SliceErr where
  | unknownLabel : String → SliceErr
deriving DecidableEq, Repr

/-- Label resolution inside `_slice_columns` (src/backend/main.py:280-297).
The source guards each check with `if start_label:` / `if end_label:`, which
in Python is false for both `None` and the empty string `""`; in those cases
the positional default is used and no membership check happens. -/
def resolveLabel (columns : List String) (label : Option String) (dflt : Nat) :
    Except SliceErr Nat :=
  match label with
  | none => .ok dflt
  | some s =>
    if s = "" then .ok dflt
    else if s ∈ columns then .ok (columns.indexOf s)
    else .error (.unknownLabel s)

/-- Shallow embedding of `_slice_columns` (src/backend/main.py:280-297):
empty input returns immediately; otherwise the start label is resolved
before the end label, the indices are swapped when `start_idx > end_idx`,
and the inclusive sub-sequence `columns[start_idx : end_idx + 1]` is
returned. -/
def sliceColumns (columns : List String) (startLabel endLabel : Option String) :
    Except SliceErr (List String) :=
  if columns.isEmpty then .ok columns
  else
    match resolveLabel columns startLabel 0,
          resolveLabel columns endLabel (columns.length - 1) with
    | .error e, _ => .error e
    | .ok _, .error e => .error e
    | .ok s, .ok e =>
      let p := if e < s then (e, s) else (s, e)
      .ok ((columns.drop p.1).take (p.2 + 1 - p.1))

/-- C7 counterexample: with a column literally named `""`, both labels occur
in the list, yet the two argument orders give different slices, because the
Python truthiness guard `if start_label:` skips resolution of the empty
string and leaves the positional default in place. -/
theorem sliceColumns_comm_counterexample :
    sliceColumns ["", "x", "y"] (some "") (some "x") = .ok ["", "x"] ∧
    sliceColumns ["", "x", "y"] (some "x") (some "") = .ok ["x", "y"] ∧
    sliceColumns ["", "x", "y"] (some "") (some "x") ≠
      sliceColumns ["", "x", "y"] (some "x") (some "") := by
  refine ⟨rfl, rfl, ?_⟩
  intro h
  rw [show sliceColumns ["", "x", "y"] (some "") (some "x") = .ok ["", "x"] from rfl,
      show sliceColumns ["", "x", "y"] (some "x") (some "") = .ok ["x", "y"] from rfl] at h
  have := Except.ok.inj h
  exact absurd (congrArg List.head? this) (by decide)

/-- C7 (amended): for every non-empty column list and every pair of
*non-empty* labels `a`, `b` that both occur in the list, the slice is
independent of the order of the bounds: each label resolves to its
positional index, the indices are swapped when start exceeds end, and the
inclusive sub-sequence is returned. -/
theorem sliceColumns_comm (cols : List String) (a b : String) (hne : cols ≠ [])
    (ha : a ∈ cols) (hb : b ∈ cols) (ha' : a ≠ "") (hb' : b ≠ "") :
    sliceColumns cols (some a) (some b) = sliceColumns cols (some b) (some a) := by
  have hemp : cols.isEmpty = false := by
    cases cols with
    | nil => exact absurd rfl hne
    | cons c rest => rfl
  have hra : resolveLabel cols (some a) 0 = .ok (cols.indexOf a) := by
    simp [resolveLabel, ha, ha']
  have hrb : resolveLabel cols (some b) 0 = .ok (cols.indexOf b) := by
    simp [resolveLabel, hb, hb']
  have hra' : resolveLabel cols (some a) (cols.length - 1) = .ok (cols.indexOf a) := by
    simp [resolveLabel, ha, ha']
  have hrb' : resolveLabel cols (some b) (cols.length - 1) = .ok (cols.indexOf b) := by
    simp [resolveLabel, hb, hb']
  set i := cols.indexOf a with hi
  set j := cols.indexOf b with hj
  have hswap : (if j < i then (j, i) else (i, j)) = (if i < j then (i, j) else (j, i)) := by
    rcases Nat.lt_trichotomy i j with h | h | h
    · rw [if_neg (by omega), if_pos h]
    · rw [if_neg (by omega), if_neg (by omega), h]
    · rw [if_pos h, if_neg (by omega)]
  simp only [sliceColumns, hemp, Bool.false_eq_true, if_false, hra, hrb, hra', hrb']
  rw [hswap]

theorem sliceColumns_comm_witness :
    sliceColumns ["a", "b", "c"] (some "c") (some "a") =
      sliceColumns ["a", "b", "c"] (some "a") (some "c") :=
  sliceColumns_comm ["a", "b", "c"] "c" "a" (by decide) (by decide) (by decide)
    (by decide) (by decide)

theorem resolveLabel_cases (columns : List String) (label : Option String) (d : Nat) :
    (∃ n, resolveLabel columns label d = .ok n) ∨
    (∃ t, resolveLabel columns label d = .error (.unknownLabel t)) := by
  match label with
  | none => exact Or.inl ⟨d, rfl⟩
  | some s =>
    by_cases hs : s = ""
    · exact Or.inl ⟨d, by simp [resolveLabel, hs]⟩
    · by_cases hmem : s ∈ columns
      · exact Or.inl ⟨columns.indexOf s, by simp [resolveLabel, hs, hmem]⟩
      · exact Or.inr ⟨s, by simp [resolveLabel, hs, hmem]⟩

/-- C8 counterexample: on a non-empty list, the supplied label `""` is
absent from the list but raises no `UnknownLabelError` — Python truthiness
(`if start_label:`) bypasses the existence check for the empty string. -/
theorem sliceColumns_empty_label_counterexample :
    sliceColumns ["a"] (some "") none = .ok ["a"] ∧ "" ∉ ["a"] := by
  exact ⟨rfl, by decide⟩

/-- C8 (amended): slicing an empty column list returns the empty list for
every pair of labels, bypassing the label-existence checks; on a non-empty
list, a supplied *non-empty* label absent from the list fails with
`UnknownLabelError`. -/
theorem sliceColumns_empty_and_unknown :
    (∀ sl el : Option String, sliceColumns [] sl el = .ok []) ∧
    (∀ (cols : List String) (sl el : Option String) (s : String), cols ≠ [] →
      ((sl = some s ∧ s ≠ "" ∧ s ∉ cols) ∨ (el = some s ∧ s ≠ "" ∧ s ∉ cols)) →
      ∃ t, sliceColumns cols sl el = .error (.unknownLabel t)) := by
  constructor
  · intro sl el
    rfl
  · intro cols sl el s hne hbad
    have hemp : cols.isEmpty = false := by
      cases cols with
      | nil => exact absurd rfl hne
      | cons c rest => rfl
    rcases resolveLabel_cases cols sl 0 with ⟨n, hok⟩ | ⟨t, herr⟩
    · rcases hbad with ⟨hsl, hs, hmem⟩ | ⟨hel, hs, hmem⟩
      · rw [hsl] at hok
        simp [resolveLabel, hs, hmem] at hok
      · refine ⟨s, ?_⟩
        have herre : resolveLabel cols el (cols.length - 1) = .error (.unknownLabel s) := by
          rw [hel]
          simp [resolveLabel, hs, hmem]
        simp only [sliceColumns, hemp, Bool.false_eq_true, if_false, hok, herre]
    · refine ⟨t, ?_⟩
      simp only [sliceColumns, hemp, Bool.false_eq_true, if_false, herr]

theorem sliceColumns_empty_and_unknown_witness :
    ∃ t, sliceColumns ["a"] (some "z") none = .error (.unknownLabel t) :=
  sliceColumns_empty_and_unknown.2 ["a"] (some "z") none "z" (by decide)
    (Or.inl ⟨rfl, by decide, by decide⟩)

/-! ## Date/Column Inference: `_infer_date_column` -/

/-- One column of a dataset table, as seen by `_infer_date_column`
(src/backend/main.py:108-117): its name together with, entrywise, whether
`pd.to_datetime(value, errors="coerce")` produced a non-missing date
(`parsed.notna()`). -/
structure IColumn where
  name : String
  parsedOk : List Bool
deriving DecidableEq, Repr

/-- `parsed.notna().mean()`: the fraction of successfully parsed entries.
On a zero-row column pandas returns NaN, modelled by `none`; every
comparison against NaN is false in Python, matching `optGtStep` below. -/
def colScore (c : IColumn) : Option ℚ :=
  if c.parsedOk = [] then none
  else some ((c.parsedOk.count true : ℚ) / (c.parsedOk.length : ℚ))

/-- The loop body of `_infer_date_column`: update `(best_column, best_score)`
when `score > best_score`; a NaN score (`none`) never updates, since
`NaN > x` is false. -/
def inferStep (acc : String × ℚ) (c : IColumn) : String × ℚ :=
  match colScore c with
  | none => acc
  | some s => if acc.2 < s then (c.name, s) else acc

/-- Shallow embedding of `_infer_date_column`: `best_column` starts at
`df.columns[0]`, `best_score` at `-1.0`, and the loop visits every column
(including the first) in order.  `df.columns[0]` is undefined on a
zero-column table; callers guarantee at least one column, and the `[]` case
is an arbitrary value. -/
def inferDateColumn : List IColumn → String
  | [] => ""
  | c :: rest => ((c :: rest).foldl inferStep (c.name, -1)).1

/-- The successfully-parsed fraction of a column (defined whenever the
column has at least one entry; on an empty column this is the junk value
`0/0`, unused below). -/
def fraction (c : IColumn) : ℚ :=
  (c.parsedOk.count true : ℚ) / (c.parsedOk.length : ℚ)

theorem fraction_nonneg (c : IColumn) : 0 ≤ fraction c := by
  unfold fraction
  positivity

theorem colScore_of_ne_nil {c : IColumn} (h : c.parsedOk ≠ []) :
    colScore c = some (fraction c) := by
  simp [colScore, fraction, h]

theorem foldl_inferStep_char : ∀ (l : List IColumn) (b : String) (s : ℚ),
    (∀ c ∈ l, c.parsedOk ≠ []) →
    (l.foldl inferStep (b, s) = (b, s) ∧ ∀ c ∈ l, fraction c ≤ s) ∨
    (∃ i : Fin l.length,
      l.foldl inferStep (b, s) = ((l.get i).name, fraction (l.get i)) ∧
      s < fraction (l.get i) ∧
      (∀ j : Fin l.length, fraction (l.get j) ≤ fraction (l.get i)) ∧
      (∀ j : Fin l.length, j.1 < i.1 → fraction (l.get j) < fraction (l.get i))) := by
  intro l
  induction l with
  | nil =>
    intro b s _
    exact Or.inl ⟨rfl, by intro c hc; exact absurd hc (List.not_mem_nil c)⟩
  | cons c rest ih =>
    intro b s hne
    have hc : c.parsedOk ≠ [] := hne c (List.mem_cons_self c rest)
    have hrest : ∀ d ∈ rest, d.parsedOk ≠ [] :=
      fun d hd => hne d (List.mem_cons_of_mem c hd)
    have hstep : (c :: rest).foldl inferStep (b, s) = rest.foldl inferStep (inferStep (b, s) c) := rfl
    by_cases hcmp : s < fraction c
    · have hupd : inferStep (b, s) c = (c.name, fraction c) := by
        simp [inferStep, colScore_of_ne_nil hc, hcmp]
      rcases ih c.name (fraction c) hrest with ⟨heq, hall⟩ | ⟨i, heq, hlt, hmax, hstrict⟩
      · refine Or.inr ⟨⟨0, Nat.succ_pos _⟩, ?_, hcmp, ?_, ?_⟩
        · rw [hstep, hupd, heq]
          show (c.name, fraction c) = (c.name, fraction c)
          rfl
        · intro j
          match j with
          | ⟨0, _⟩ => exact le_refl _
          | ⟨n + 1, hn⟩ =>
            show fraction (rest.get ⟨n, Nat.succ_lt_succ_iff.mp hn⟩) ≤ fraction c
            exact hall _ (List.get_mem rest n (Nat.succ_lt_succ_iff.mp hn))
        · intro j hj
          exact absurd hj (Nat.not_lt_zero _)
      · refine Or.inr ⟨⟨i.1 + 1, Nat.succ_lt_succ i.2⟩, ?_, ?_, ?_, ?_⟩
        · rw [hstep, hupd, heq]
          show _ = ((rest.get ⟨i.1, i.2⟩).name, fraction (rest.get ⟨i.1, i.2⟩))
          rfl
        · show s < fraction (rest.get ⟨i.1, i.2⟩)
          exact lt_trans hcmp hlt
        · intro j
          match j with
          | ⟨0, _⟩ =>
            show fraction c ≤ fraction (rest.get ⟨i.1, i.2⟩)
            exact le_of_lt hlt
          | ⟨n + 1, hn⟩ =>
            show fraction (rest.get ⟨n, Nat.succ_lt_succ_iff.mp hn⟩) ≤
              fraction (rest.get ⟨i.1, i.2⟩)
            exact hmax ⟨n, Nat.succ_lt_succ_iff.mp hn⟩
        · intro j hj
          match j, hj with
          | ⟨0, _⟩, _ =>
            show fraction c < fraction (rest.get ⟨i.1, i.2⟩)
            exact hlt
          | ⟨n + 1, hn⟩, hj =>
            show fraction (rest.get ⟨n, Nat.succ_lt_succ_iff.mp hn⟩) <
              fraction (rest.get ⟨i.1, i.2⟩)
            exact hstrict ⟨n, Nat.succ_lt_succ_iff.mp hn⟩ (Nat.succ_lt_succ_iff.mp hj)
    · have hupd : inferStep (b, s) c = (b, s) := by
        simp [inferStep, colScore_of_ne_nil hc, hcmp]
      have hfc : fraction c ≤ s := le_of_not_lt hcmp
      rcases ih b s hrest with ⟨heq, hall⟩ | ⟨i, heq, hlt, hmax, hstrict⟩
      · refine Or.inl ⟨?_, ?_⟩
        · rw [hstep, hupd, heq]
        · intro d hd
          rcases List.mem_cons.mp hd with h | h
          · exact h ▸ hfc
          · exact hall d h
      · refine Or.inr ⟨⟨i.1 + 1, Nat.succ_lt_succ i.2⟩, ?_, ?_, ?_, ?_⟩
        · rw [hstep, hupd, heq]
          show _ = ((rest.get ⟨i.1, i.2⟩).name, fraction (rest.get ⟨i.1, i.2⟩))
          rfl
        · show s < fraction (rest.get ⟨i.1, i.2⟩)
          exact hlt
        · intro j
          match j with
          | ⟨0, _⟩ =>
            show fraction c ≤ fraction (rest.get ⟨i.1, i.2⟩)
            exact le_trans hfc (le_of_lt hlt)
          | ⟨n + 1, hn⟩ =>
            show fraction (rest.get ⟨n, Nat.succ_lt_succ_iff.mp hn⟩) ≤
              fraction (rest.get ⟨i.1, i.2⟩)
            exact hmax ⟨n, Nat.succ_lt_succ_iff.mp hn⟩
        · intro j hj
          match j, hj with
          | ⟨0, _⟩, _ =>
            show fraction c < fraction (rest.get ⟨i.1, i.2⟩)
            exact lt_of_le_of_lt hfc hlt
          | ⟨n + 1, hn⟩, hj =>
            show fraction (rest.get ⟨n, Nat.succ_lt_succ_iff.mp hn⟩) <
              fraction (rest.get ⟨i.1, i.2⟩)
            exact hstrict ⟨n, Nat.succ_lt_succ_iff.mp hn⟩ (Nat.succ_lt_succ_iff.mp hj)

/-- C2: on a table with at least one column (and at least one row, so that
the per-column fractions are defined), `_infer_date_column` returns the name
of a column achieving the strictly highest successfully-parsed fraction,
with ties broken by first occurrence (leftmost wins); the returned name is a
column of the table; and when exactly one column is fully parseable and all
others are not, that column is chosen. -/
theorem inferDateColumn_spec (cols : List IColumn) (hne : cols ≠ [])
    (hrows : ∀ c ∈ cols, c.parsedOk ≠ []) :
    ∃ i : Fin cols.length,
      inferDateColumn cols = (cols.get i).name ∧
      inferDateColumn cols ∈ cols.map IColumn.name ∧
      (∀ j : Fin cols.length, fraction (cols.get j) ≤ fraction (cols.get i)) ∧
      (∀ j : Fin cols.length, j.1 < i.1 → fraction (cols.get j) < fraction (cols.get i)) ∧
      (∀ u : Fin cols.length, fraction (cols.get u) = 1 →
        (∀ v : Fin cols.length, v ≠ u → fraction (cols.get v) < 1) →
        inferDateColumn cols = (cols.get u).name) := by
  match cols, hne with
  | c :: rest, _ =>
    have hmain := foldl_inferStep_char (c :: rest) c.name (-1) hrows
    rcases hmain with ⟨_, hall⟩ | ⟨i, heq, _, hmax, hstrict⟩
    · have h0 : fraction c ≤ -1 := hall c (List.mem_cons_self c rest)
      have h1 : (0 : ℚ) ≤ fraction c := fraction_nonneg c
      linarith
    · have hval : inferDateColumn (c :: rest) = ((c :: rest).get i).name := by
        show ((c :: rest).foldl inferStep (c.name, -1)).1 = _
        rw [heq]
      refine ⟨i, hval, ?_, hmax, hstrict, ?_⟩
      · rw [hval]
        exact List.mem_map_of_mem IColumn.name (List.get_mem (c :: rest) i.1 i.2)
      · intro u hu hothers
        by_cases hiu : i = u
        · rw [hval, hiu]
        · have h1 : fraction ((c :: rest).get i) < 1 := hothers i hiu
          have h2 : fraction ((c :: rest).get u) ≤ fraction ((c :: rest).get i) := hmax u
          rw [hu] at h2
          linarith

theorem inferDateColumn_spec_witness :
    inferDateColumn [⟨"a", [false, true]⟩, ⟨"d", [true, true]⟩] ∈
      ([⟨"a", [false, true]⟩, ⟨"d", [true, true]⟩] : List IColumn).map IColumn.name := by
  obtain ⟨i, h1, h2, h3⟩ :=
    inferDateColumn_spec [⟨"a", [false, true]⟩, ⟨"d", [true, true]⟩] (by decide)
      (by decide)
  exact h2

/-! ## Table Parser (input-file path): `_parse_input_dataframe` -/

/-- A raw decoded table as handed to `_parse_input_dataframe`: its
(untrimmed) column names and its number of rows.  The row contents play no
role in the column classification. -/
structure RawTable where
  colNames : List String
  nrows : Nat
deriving DecidableEq, Repr

inductive ParseErr where
  | emptyInput
  | missingIndex
  | noTimeColumns
deriving DecidableEq, Repr

/-- Python `str(col).strip()`: remove leading and trailing whitespace.
(`stripName` from the library is definitionally opaque, so the same
operation is written structurally here.) -/
def stripName (s : String) : String :=
  String.mk (((s.data.dropWhile Char.isWhitespace).reverse.dropWhile Char.isWhitespace).reverse)

/-- `TIME_COLUMN_PATTERN = ^\d{4}\.\d+$` (src/backend/main.py:120): four
digits, a literal dot, one or more digits.  `\d` is modelled as an ASCII
decimal digit. -/
def isTimeColumn (s : String) : Bool :=
  match s.data with
  | a :: b :: c :: d :: e :: rest =>
    a.isDigit && b.isDigit && c.isDigit && d.isDigit && e == '.' &&
      !rest.isEmpty && rest.all Char.isDigit
  | _ => false

/-- Shallow embedding of `_parse_input_dataframe`
(src/backend/main.py:125-151), restricted to its column classification:
reject an empty frame (`df.empty`: zero rows or zero columns), trim column
names, require a "Mnemonic" column, collect the non-index columns matching
the time pattern, require at least one, and classify the remaining
non-index columns as metadata.  Returns the pair
(time columns, metadata columns). -/
def parseInputDataframe (t : RawTable) : Except ParseErr (List String × List String) :=
  if t.nrows = 0 ∨ t.colNames = [] then .error .emptyInput
  else
    let normalized := t.colNames.map stripName
    if "Mnemonic" ∉ normalized then .error .missingIndex
    else
      let timeColumns := normalized.filter (fun column => column != "Mnemonic" && isTimeColumn column)
      if timeColumns = [] then .error .noTimeColumns
      else
        let metadataColumns :=
          normalized.filter (fun column => !(timeColumns.contains column) && column != "Mnemonic")
        .ok (timeColumns, metadataColumns)

theorem isTimeColumn_mnemonic : isTimeColumn "Mnemonic" = false := by decide

/-- C3: on a non-empty table, parsing fails with `MissingIndexError` exactly
when no trimmed column is named "Mnemonic"; given a "Mnemonic" column it
fails with `NoTimeColumnsError` exactly when no column matches the time
pattern; on success the matching non-index columns are the time columns and
the remaining non-index columns the metadata columns; and the columns
`Mnemonic, 2022.1, 2022.2, Region` yield time columns `["2022.1","2022.2"]`
and metadata columns `["Region"]`. -/
theorem parseInputDataframe_spec (t : RawTable) (hrows : t.nrows ≠ 0)
    (hcols : t.colNames ≠ []) :
    (parseInputDataframe t = .error .missingIndex ↔
      "Mnemonic" ∉ t.colNames.map stripName) ∧
    ("Mnemonic" ∈ t.colNames.map stripName →
      (parseInputDataframe t = .error .noTimeColumns ↔
        ∀ c ∈ t.colNames.map stripName, isTimeColumn c = false)) ∧
    (∀ tc mc, parseInputDataframe t = .ok (tc, mc) →
      tc = (t.colNames.map stripName).filter
            (fun c => c != "Mnemonic" && isTimeColumn c) ∧
      mc = (t.colNames.map stripName).filter
            (fun c => !(tc.contains c) && c != "Mnemonic")) ∧
    parseInputDataframe ⟨["Mnemonic", "2022.1", "2022.2", "Region"], 3⟩ =
      .ok (["2022.1", "2022.2"], ["Region"]) := by
  have hne : ¬(t.nrows = 0 ∨ t.colNames = []) := by
    intro h
    rcases h with h | h
    · exact hrows h
    · exact hcols h
  have hfilter_iff : (t.colNames.map stripName).filter
        (fun c => c != "Mnemonic" && isTimeColumn c) = [] ↔
      ∀ c ∈ t.colNames.map stripName, isTimeColumn c = false := by
    rw [List.filter_eq_nil_iff]
    constructor
    · intro h c hc
      have := h c hc
      by_cases hcm : c = "Mnemonic"
      · rw [hcm]; exact isTimeColumn_mnemonic
      · simp only [bne_iff_ne, ne_eq, hcm, not_false_eq_true, true_and,
          Bool.and_eq_true, decide_eq_true_eq] at this
        simp only [Bool.not_eq_true] at this
        revert this
        simp [hcm]
    · intro h c hc
      simp [h c hc]
  by_cases hmem : "Mnemonic" ∈ t.colNames.map stripName
  · by_cases htc : (t.colNames.map stripName).filter
        (fun c => c != "Mnemonic" && isTimeColumn c) = []
    · have hP : parseInputDataframe t = .error .noTimeColumns := by
        simp only [parseInputDataframe, if_neg hne]
        rw [if_neg (not_not_intro hmem), if_pos htc]
      refine ⟨?_, ?_, ?_, by rfl⟩
      · rw [hP]
        constructor
        · intro h
          exact absurd (Except.error.inj h) (by decide)
        · intro h
          exact absurd hmem h
      · intro _
        rw [hP]
        constructor
        · intro _
          exact hfilter_iff.mp htc
        · intro _
          rfl
      · intro tc mc h
        rw [hP] at h
        exact Except.noConfusion h
    · have hP : parseInputDataframe t = .ok
          ((t.colNames.map stripName).filter (fun c => c != "Mnemonic" && isTimeColumn c),
           (t.colNames.map stripName).filter
             (fun c => !(((t.colNames.map stripName).filter
                 (fun c => c != "Mnemonic" && isTimeColumn c)).contains c) &&
               c != "Mnemonic")) := by
        simp only [parseInputDataframe, if_neg hne]
        rw [if_neg (not_not_intro hmem), if_neg htc]
      refine ⟨?_, ?_, ?_, by rfl⟩
      · rw [hP]
        constructor
        · intro h
          exact Except.noConfusion h
        · intro h
          exact absurd hmem h
      · intro _
        rw [hP]
        constructor
        · intro h
          exact Except.noConfusion h
        · intro h
          exact absurd (hfilter_iff.mpr h) htc
      · intro tc mc h
        rw [hP] at h
        have hpair := Except.ok.inj h
        have htceq : tc = (t.colNames.map stripName).filter
            (fun c => c != "Mnemonic" && isTimeColumn c) := (Prod.mk.injEq _ _ _ _ ▸ hpair).1.symm
        refine ⟨htceq, ?_⟩
        have hmceq := (Prod.mk.injEq _ _ _ _ ▸ hpair).2.symm
        rw [htceq]
        exact hmceq
  · have hP : parseInputDataframe t = .error .missingIndex := by
      simp only [parseInputDataframe, if_neg hne]
      rw [if_pos hmem]
    refine ⟨?_, ?_, ?_, by rfl⟩
    · exact ⟨fun _ => hmem, fun _ => hP⟩
    · intro h
      exact absurd h hmem
    · intro tc mc h
      rw [hP] at h
      exact Except.noConfusion h

theorem parseInputDataframe_spec_witness :
    parseInputDataframe ⟨["Mnemonic", "2022.1", "2022.2", "Region"], 3⟩ =
      .ok (["2022.1", "2022.2"], ["Region"]) :=
  (parseInputDataframe_spec ⟨["Mnemonic", "2022.1", "2022.2", "Region"], 3⟩
    (by decide) (by decide)).2.2.2

/-! ## Time-Series Store: sheet tables and series lookup -/

/-- A sheet table (`parsed = normalized.set_index("Mnemonic")`): ordered
column names, and ordered rows of (index label, cells).  Each row's cell
list is aligned positionally with `colNames`; `none` is NaN.  Lookups by
index label take the first matching row (the spec treats the index as
unique, first match wins). -/
structure Table where
  colNames : List String
  rows : List (String × List (Option ℚ))
deriving DecidableEq, Repr

/-- The value of the cell at (series, label): the first row whose index is
`series`, read at the position of `label` in the column names; `none` when
the row or the column is absent, or the stored cell is NaN. -/
def getCell (t : Table) (series label : String) : Option ℚ :=
  match t.rows.find? (fun r => r.1 == series) with
  | none => none
  | some r => if label ∈ t.colNames then r.2.getD (t.colNames.indexOf label) none else none

/-- Shallow embedding of `_get_series_values` (src/backend/main.py:217-227):
a missing series name yields `[None] * len(columns)`; otherwise
`df.loc[series].reindex(columns)` reads, for each requested label in order,
the cell under that column or NaN when the table lacks it. -/
def getSeriesValues (t : Table) (seriesName : String) (columns : List String) :
    List (Option ℚ) :=
  match t.rows.find? (fun r => r.1 == seriesName) with
  | none => columns.map (fun _ => none)
  | some r => columns.map (fun label =>
      if label ∈ t.colNames then r.2.getD (t.colNames.indexOf label) none else none)

/-- C5: the series-values lookup returns one value per requested label in
order (same length, and positionally the cell at (series, label), missing
when the cell is absent or the table lacks the column); when the series
name is not in the index it returns a full list of missing values of the
same length instead of failing. -/
theorem getSeriesValues_spec (t : Table) (s : String) (cols : List String) :
    (getSeriesValues t s cols).length = cols.length ∧
    ((∀ r ∈ t.rows, r.1 ≠ s) → getSeriesValues t s cols = cols.map (fun _ => none)) ∧
    (∀ (i : Nat) (c : String), cols.get? i = some c →
      (getSeriesValues t s cols).get? i = some (getCell t s c)) := by
  match hfind : t.rows.find? (fun r => r.1 == s) with
  | none =>
    refine ⟨?_, ?_, ?_⟩
    · simp [getSeriesValues, hfind]
    · intro _
      simp [getSeriesValues, hfind]
    · intro i c hc
      simp only [getSeriesValues, hfind, List.get?_map, hc, Option.map_some']
      simp [getCell, hfind]
  | some r =>
    refine ⟨?_, ?_, ?_⟩
    · simp [getSeriesValues, hfind]
    · intro hnone
      have hmem := List.mem_of_find?_eq_some hfind
      have hpred := List.find?_some hfind
      rw [beq_iff_eq] at hpred
      exact absurd hpred (hnone r hmem)
    · intro i c hc
      simp only [getSeriesValues, hfind, List.get?_map, hc, Option.map_some']
      simp [getCell, hfind]

theorem getSeriesValues_spec_witness :
    getSeriesValues ⟨["2022.1"], [("s1", [some 5])]⟩ "zz" ["2022.1"] =
      (["2022.1"] : List String).map (fun _ => none) :=
  (getSeriesValues_spec ⟨["2022.1"], [("s1", [some 5])]⟩ "zz" ["2022.1"]).2.1 (by decide)

/-! ## Registries: Python dictionaries as association lists -/

/-- A Python `dict` keyed by strings. -/
abbrev StrMap (α : Type) := List (String × α)

/-- `m.get(k)` / `m[k]`. -/
def alGet {α : Type} (m : StrMap α) (k : String) : Option α :=
  (m.find? (fun p => p.1 == k)).map (fun p => p.2)

/-- `m[k] = v`: replace in place when the key is present, append otherwise
(Python dicts keep insertion order). -/
def alSet {α : Type} (m : StrMap α) (k : String) (v : α) : StrMap α :=
  if (m.find? (fun p => p.1 == k)).isSome then
    m.map (fun p => if p.1 == k then (k, v) else p)
  else m ++ [(k, v)]

/-- `m.pop(k, None)`. -/
def alErase {α : Type} (m : StrMap α) (k : String) : StrMap α :=
  m.filter (fun p => p.1 != k)

/-- `m.keys()` (with multiplicity; maps built by `alSet` have unique keys). -/
def alKeys {α : Type} (m : StrMap α) : List String :=
  m.map (fun p => p.1)

theorem alKeys_nil {α : Type} : alKeys ([] : StrMap α) = [] := rfl

theorem alGet_isSome_iff_mem {α : Type} (m : StrMap α) (k : String) :
    (alGet m k).isSome = true ↔ k ∈ alKeys m := by
  unfold alGet alKeys
  induction m with
  | nil => simp
  | cons p rest ih =>
    by_cases hp : p.1 = k
    · simp [List.find?_cons, hp]
    · have : (p.1 == k) = false := beq_eq_false_iff_ne.mpr hp
      simp only [List.find?_cons, this, List.map_cons, List.mem_cons]
      rw [ih]
      constructor
      · intro h
        exact Or.inr h
      · intro h
        rcases h with h | h
        · exact absurd h.symm hp
        · exact h

theorem alGet_eq_none_iff {α : Type} (m : StrMap α) (k : String) :
    alGet m k = none ↔ k ∉ alKeys m := by
  rw [← alGet_isSome_iff_mem]
  cases alGet m k with
  | none => simp
  | some v => simp

theorem alSet_cons_ne {α : Type} (p : String × α) (rest : StrMap α) (k : String) (v : α)
    (hp : (p.1 == k) = false) : alSet (p :: rest) k v = p :: alSet rest k v := by
  unfold alSet
  simp only [List.find?_cons, hp, cond_false]
  by_cases h : (rest.find? (fun q => q.1 == k)).isSome = true
  · rw [if_pos h, if_pos h, List.map_cons, hp]
    simp
  · rw [if_neg h, if_neg h, List.cons_append]

theorem alSet_cons_eq {α : Type} (p : String × α) (rest : StrMap α) (k : String) (v : α)
    (hp : (p.1 == k) = true) :
    alSet (p :: rest) k v = (k, v) :: rest.map (fun q => if q.1 == k then (k, v) else q) := by
  unfold alSet
  simp only [List.find?_cons, hp, cond_true, Option.isSome_some, if_pos, List.map_cons, hp,
    if_true]

theorem find?_map_subst_ne {α : Type} (rest : StrMap α) (k k' : String) (v : α)
    (h : k' ≠ k) :
    (rest.map (fun p => if p.1 == k then (k, v) else p)).find? (fun p => p.1 == k') =
      rest.find? (fun p => p.1 == k') := by
  induction rest with
  | nil => rfl
  | cons q rest ih =>
    by_cases hq : q.1 = k
    · have hbe : (q.1 == k) = true := beq_iff_eq.mpr hq
      have h1 : (k == k') = false := beq_eq_false_iff_ne.mpr (fun hh => h hh.symm)
      have h2 : (q.1 == k') = false := by rw [hq]; exact h1
      simp only [List.map_cons, hbe, if_true, List.find?_cons, h1, h2, cond_false]
      exact ih
    · have hbe : (q.1 == k) = false := beq_eq_false_iff_ne.mpr hq
      cases hqk' : (q.1 == k') with
      | true => simp only [List.map_cons, hbe, Bool.false_eq_true, if_false,
          List.find?_cons, hqk', cond_true]
      | false => simp only [List.map_cons, hbe, Bool.false_eq_true, if_false,
          List.find?_cons, hqk', cond_false]; exact ih

theorem mem_alKeys_alSet {α : Type} (m : StrMap α) (k : String) (v : α) (k' : String) :
    k' ∈ alKeys (alSet m k v) ↔ k' ∈ alKeys m ∨ k' = k := by
  induction m with
  | nil =>
    unfold alSet alKeys
    simp [eq_comm]
  | cons p rest ih =>
    by_cases hp : p.1 = k
    · rw [alSet_cons_eq p rest k v (beq_iff_eq.mpr hp)]
      unfold alKeys
      simp only [List.map_cons, List.map_map, List.mem_cons]
      have hkeys : rest.map ((fun p => p.1) ∘ fun q => if q.1 == k then (k, v) else q) =
          rest.map (fun p => p.1) := by
        apply List.map_congr_left
        intro q _
        by_cases hq : q.1 = k <;> simp [hq]
      rw [hkeys]
      constructor
      · intro hh
        rcases hh with hh | hh
        · exact Or.inr hh
        · exact Or.inl (Or.inr hh)
      · intro hh
        rcases hh with (hh | hh) | hh
        · exact Or.inl (hp ▸ hh)
        · exact Or.inr hh
        · exact Or.inl hh
    · rw [alSet_cons_ne p rest k v (beq_eq_false_iff_ne.mpr hp)]
      unfold alKeys at ih ⊢
      simp only [List.map_cons, List.mem_cons]
      rw [ih]
      tauto

theorem alGet_alSet_self {α : Type} (m : StrMap α) (k : String) (v : α) :
    alGet (alSet m k v) k = some v := by
  induction m with
  | nil =>
    unfold alSet alGet
    simp
  | cons p rest ih =>
    by_cases hp : p.1 = k
    · rw [alSet_cons_eq p rest k v (beq_iff_eq.mpr hp)]
      unfold alGet
      simp [List.find?_cons]
    · rw [alSet_cons_ne p rest k v (beq_eq_false_iff_ne.mpr hp)]
      unfold alGet at ih ⊢
      simp only [List.find?_cons, beq_eq_false_iff_ne.mpr hp, cond_false]
      exact ih

theorem alGet_alSet_ne {α : Type} (m : StrMap α) (k : String) (v : α) (k' : String)
    (h : k' ≠ k) : alGet (alSet m k v) k' = alGet m k' := by
  induction m with
  | nil =>
    unfold alSet alGet
    simp [beq_eq_false_iff_ne.mpr (fun hh => h hh.symm)]
  | cons p rest ih =>
    by_cases hp : p.1 = k
    · rw [alSet_cons_eq p rest k v (beq_iff_eq.mpr hp)]
      unfold alGet
      have h1 : (k == k') = false := beq_eq_false_iff_ne.mpr (fun hh => h hh.symm)
      have h2 : (p.1 == k') = false := by rw [hp]; exact h1
      simp only [List.find?_cons, h1, h2, cond_false]
      rw [find?_map_subst_ne rest k k' v h]
    · rw [alSet_cons_ne p rest k v (beq_eq_false_iff_ne.mpr hp)]
      unfold alGet at ih ⊢
      simp only [List.find?_cons]
      cases hpk' : (p.1 == k') with
      | true => rfl
      | false => simp only [cond_false]; exact ih

theorem alGet_alErase_self {α : Type} (m : StrMap α) (k : String) :
    alGet (alErase m k) k = none := by
  unfold alGet alErase
  rw [Option.map_eq_none', List.find?_eq_none]
  intro p hp
  have := (List.mem_filter.mp hp).2
  simp only [bne_iff_ne, ne_eq, decide_eq_true_eq] at this
  simp [this]

theorem alGet_alErase_ne {α : Type} (m : StrMap α) (k k' : String) (h : k' ≠ k) :
    alGet (alErase m k) k' = alGet m k' := by
  unfold alGet alErase
  induction m with
  | nil => simp
  | cons p rest ih =>
    by_cases hp : p.1 = k
    · have hbne : (p.1 != k) = false := by simp [hp]
      have hpk' : (p.1 == k') = false := beq_eq_false_iff_ne.mpr (hp ▸ fun hh => h hh.symm)
      simp only [List.filter_cons, hbne, if_false, List.find?_cons, hpk', cond_false]
      exact ih
    · have hbne : (p.1 != k) = true := by simp [hp]
      simp only [List.filter_cons, hbne, if_true, List.find?_cons]
      cases hpk' : (p.1 == k') with
      | true => simp
      | false => simp only [cond_false]; exact ih

theorem mem_alKeys_alErase {α : Type} (m : StrMap α) (k k' : String) :
    k' ∈ alKeys (alErase m k) ↔ k' ∈ alKeys m ∧ k' ≠ k := by
  unfold alKeys alErase
  constructor
  · intro h
    rcases List.mem_map.mp h with ⟨p, hp, hpk⟩
    have hmem := (List.mem_filter.mp hp).1
    have hne := (List.mem_filter.mp hp).2
    simp only [bne_iff_ne, ne_eq, decide_eq_true_eq] at hne
    exact ⟨List.mem_map.mpr ⟨p, hmem, hpk⟩, hpk ▸ hne⟩
  · intro ⟨h1, h2⟩
    rcases List.mem_map.mp h1 with ⟨p, hp, hpk⟩
    refine List.mem_map.mpr ⟨p, List.mem_filter.mpr ⟨hp, ?_⟩, hpk⟩
    simp only [bne_iff_ne, ne_eq, decide_eq_true_eq]
    exact hpk ▸ h2

theorem find?_fst_isSome_iff {α : Type} (m : StrMap α) (k : String) :
    (m.find? (fun p => p.1 == k)).isSome = true ↔ k ∈ m.map (fun p => p.1) := by
  have := alGet_isSome_iff_mem m k
  unfold alGet alKeys at this
  rw [← this]
  cases m.find? (fun p => p.1 == k) with
  | none => simp
  | some p => simp

/-! ## Time-Series Store: the six parallel registries and their operations -/

def DEFAULT_SHEET : String := "Quarterly"

/-- `request.sheet_name or DEFAULT_SHEET`: Python `or` falls back on every
falsy value, i.e. both `None` and `""`. -/
def effSheetName : Option String → String
  | none => DEFAULT_SHEET
  | some s => if s = "" then DEFAULT_SHEET else s

/-- The six module-level dictionaries `INPUT_FILES`, `INPUT_FILE_COLUMNS`,
`INPUT_FILE_SERIES`, `INPUT_FILE_FORMAT`, `INPUT_FILE_METADATA`,
`INPUT_FILE_SHEETS` (src/backend/main.py:37-42), gathered in one record. -/
structure Registry where
  inputFiles : StrMap (StrMap Table)
  inputFileColumns : StrMap (StrMap (List String))
  inputFileSeries : StrMap (StrMap (List String))
  inputFileFormat : StrMap String
  inputFileMetadata : StrMap (StrMap Table)
  inputFileSheets : StrMap (List String)
deriving DecidableEq, Repr

def emptyRegistry : Registry := ⟨[], [], [], [], [], []⟩

/-- The body of `InputFileEditRequest` (src/backend/main.py:96-101). -/
structure EditReq where
  fileId : String
  seriesName : String
  label : String
  value : ℚ
  sheetName : Option String
deriving DecidableEq, Repr

inductive EditErr where
  | notFound
  | unknownSeries
  | unknownLabel
deriving DecidableEq, Repr

/-- `df.at[series_name, label] = value` on the first row whose index equals
the series name, at the position `idx` of the label among the columns
(`List.set` is a no-op when `idx` is out of range; for registered sheets
the edited label is always one of the sheet's columns). -/
def setCellRows : List (String × List (Option ℚ)) → String → Nat → ℚ →
    List (String × List (Option ℚ))
  | [], _, _, _ => []
  | r :: rest, s, idx, v =>
    if r.1 == s then (r.1, r.2.set idx (some v)) :: rest
    else r :: setCellRows rest s idx v

def setCell (t : Table) (series label : String) (v : ℚ) : Table :=
  ⟨t.colNames, setCellRows t.rows series (t.colNames.indexOf label) v⟩

/-- `INPUT_FILES.get(file_id, {}).get(sheet_name)`. -/
def lookupSheet (r : Registry) (fileId : String) (sheet : String) : Option Table :=
  (alGet r.inputFiles fileId).bind (fun m => alGet m sheet)

/-- `INPUT_FILE_COLUMNS.get(file_id, {}).get(sheet_name, [])`. -/
def timeColsOf (r : Registry) (fileId : String) (sheet : String) : List String :=
  (alGet ((alGet r.inputFileColumns fileId).getD []) sheet).getD []

/-- Shallow embedding of `edit_input_file` (src/backend/main.py:498-510):
resolve the sheet (`sheet_name or DEFAULT_SHEET`), 404 when the file/sheet
is missing, reject an unknown series name, reject a label that is not a
recognized time column, and otherwise overwrite exactly the addressed cell.
The single mutation comes after every check, so an error leaves the stored
registry untouched (rendered here by returning `Except`). -/
def editInputFile (r : Registry) (q : EditReq) : Except EditErr Registry :=
  match alGet r.inputFiles q.fileId with
  | none => .error .notFound
  | some sheetMap =>
    match alGet sheetMap (effSheetName q.sheetName) with
    | none => .error .notFound
    | some df =>
      if q.seriesName ∈ df.rows.map (fun row => row.1) then
        if q.label ∈ timeColsOf r q.fileId (effSheetName q.sheetName) then
          let newSheetMap := alSet sheetMap (effSheetName q.sheetName)
            (setCell df q.seriesName q.label q.value)
          .ok { r with inputFiles := alSet r.inputFiles q.fileId newSheetMap }
        else .error .unknownLabel
      else .error .unknownSeries

/-- The cell of a stored registry at (file, sheet, series, label). -/
def regCell (r : Registry) (fileId sheet series label : String) : Option ℚ :=
  match lookupSheet r fileId sheet with
  | none => none
  | some df => getCell df series label

theorem find?_setCellRows_ne (rows : List (String × List (Option ℚ))) (s : String)
    (idx : Nat) (v : ℚ) (s' : String) (h : s' ≠ s) :
    (setCellRows rows s idx v).find? (fun r => r.1 == s') =
      rows.find? (fun r => r.1 == s') := by
  induction rows with
  | nil => rfl
  | cons r rest ih =>
    by_cases hr : r.1 = s
    · have hbe : (r.1 == s) = true := beq_iff_eq.mpr hr
      have hbe' : (r.1 == s') = false := beq_eq_false_iff_ne.mpr (hr ▸ fun hh => h hh.symm)
      simp only [setCellRows, hbe, if_true, List.find?_cons, hbe', cond_false]
    · have hbe : (r.1 == s) = false := beq_eq_false_iff_ne.mpr hr
      simp only [setCellRows, hbe, Bool.false_eq_true, if_false, List.find?_cons]
      cases hr' : (r.1 == s') with
      | true => rfl
      | false => simp only [cond_false]; exact ih

theorem find?_setCellRows_self (rows : List (String × List (Option ℚ))) (s : String)
    (idx : Nat) (v : ℚ) :
    (setCellRows rows s idx v).find? (fun r => r.1 == s) =
      (rows.find? (fun r => r.1 == s)).map (fun r => (r.1, r.2.set idx (some v))) := by
  induction rows with
  | nil => rfl
  | cons r rest ih =>
    cases hr : (r.1 == s) with
    | true =>
      simp only [setCellRows, hr, if_true, List.find?_cons, hr, cond_true, Option.map_some']
    | false =>
      simp only [setCellRows, hr, Bool.false_eq_true, if_false, List.find?_cons, hr,
        cond_false]
      exact ih

theorem indexOf_ne_of_mem_ne {l : List String} {a b : String} (hab : a ≠ b)
    (ha : a ∈ l) : l.indexOf b ≠ l.indexOf a := by
  intro heq
  by_cases hb : b ∈ l
  · exact hab ((List.indexOf_inj hb ha).mp heq).symm
  · have hlen : l.indexOf b = l.length := List.indexOf_eq_length.mpr hb
    have hlt_a : l.indexOf a < l.length := List.indexOf_lt_length.mpr ha
    rw [heq] at hlen
    omega

theorem getCell_setCell_self (t : Table) (series label : String) (v : ℚ)
    (hser : series ∈ t.rows.map (fun row => row.1)) (hlab : label ∈ t.colNames)
    (hwf : ∀ row ∈ t.rows, row.2.length = t.colNames.length) :
    getCell (setCell t series label v) series label = some v := by
  have hfind : (t.rows.find? (fun r => r.1 == series)).isSome = true :=
    (find?_fst_isSome_iff t.rows series).mpr hser
  cases hf : t.rows.find? (fun r => r.1 == series) with
  | none => rw [hf] at hfind; exact absurd hfind (by simp)
  | some row =>
    have hrowmem : row ∈ t.rows := List.mem_of_find?_eq_some hf
    have hrowlen : row.2.length = t.colNames.length := hwf row hrowmem
    have hidx : t.colNames.indexOf label < row.2.length := by
      rw [hrowlen]
      exact List.indexOf_lt_length.mpr hlab
    unfold getCell setCell
    simp only [find?_setCellRows_self, hf, Option.map_some']
    rw [if_pos hlab]
    rw [List.getD_eq_getElem?_getD, List.getElem?_set_self hidx]
    rfl

theorem getCell_setCell_ne (t : Table) (series label : String) (v : ℚ) (s l : String)
    (h : s ≠ series ∨ l ≠ label) :
    getCell (setCell t series label v) s l = getCell t s l := by
  by_cases hs : s = series
  · have hl : l ≠ label := h.resolve_left (not_not_intro hs)
    subst hs
    unfold getCell setCell
    simp only [find?_setCellRows_self]
    cases hf : t.rows.find? (fun r => r.1 == s) with
    | none => rfl
    | some row =>
      simp only [Option.map_some']
      by_cases hlm : l ∈ t.colNames
      · rw [if_pos hlm, if_pos hlm]
        have hne_idx : t.colNames.indexOf label ≠ t.colNames.indexOf l :=
          indexOf_ne_of_mem_ne hl hlm
        rw [List.getD_eq_getElem?_getD, List.getD_eq_getElem?_getD,
          List.getElem?_set_ne hne_idx]
      · rw [if_neg hlm, if_neg hlm]
  · unfold getCell setCell
    rw [find?_setCellRows_ne t.rows series (t.colNames.indexOf label) v s hs]

/-- C4: `edit(fileId, sheetName, seriesName, label, value)` fails with
`NotFoundError` exactly when the file or sheet is missing; with
`UnknownSeriesError` exactly when the sheet exists but the series name is
absent from its index; with `UnknownLabelError` exactly when file, sheet and
series resolve but the label is not one of the sheet's recognized time
columns; and on success exactly the one addressed cell is overwritten with
the given value (cells at every other (file, sheet, series, label) address
are unchanged).  Errors leave the registry untouched: the embedding only
constructs a new registry in the success branch, matching the source, where
the single mutating statement comes after all checks.  The success clause
carries the well-formedness facts that hold for every registered sheet: the
edited label is one of the sheet's columns and rows are aligned with the
column names. -/
theorem editInputFile_spec (r : Registry) (q : EditReq) :
    (editInputFile r q = .error .notFound ↔
      lookupSheet r q.fileId (effSheetName q.sheetName) = none) ∧
    (∀ df, lookupSheet r q.fileId (effSheetName q.sheetName) = some df →
      (editInputFile r q = .error .unknownSeries ↔
        q.seriesName ∉ df.rows.map (fun row => row.1))) ∧
    (∀ df, lookupSheet r q.fileId (effSheetName q.sheetName) = some df →
      q.seriesName ∈ df.rows.map (fun row => row.1) →
      (editInputFile r q = .error .unknownLabel ↔
        q.label ∉ timeColsOf r q.fileId (effSheetName q.sheetName))) ∧
    (∀ df, lookupSheet r q.fileId (effSheetName q.sheetName) = some df →
      q.seriesName ∈ df.rows.map (fun row => row.1) →
      q.label ∈ timeColsOf r q.fileId (effSheetName q.sheetName) →
      q.label ∈ df.colNames →
      (∀ row ∈ df.rows, row.2.length = df.colNames.length) →
      ∃ r', editInputFile r q = .ok r' ∧
        regCell r' q.fileId (effSheetName q.sheetName) q.seriesName q.label = some q.value ∧
        (∀ f sn s l : String,
          f ≠ q.fileId ∨ sn ≠ effSheetName q.sheetName ∨ s ≠ q.seriesName ∨ l ≠ q.label →
          regCell r' f sn s l = regCell r f sn s l)) := by
  cases halG : alGet r.inputFiles q.fileId with
  | none =>
    have hlook : lookupSheet r q.fileId (effSheetName q.sheetName) = none := by
      unfold lookupSheet
      rw [halG]
      rfl
    have hedit : editInputFile r q = .error .notFound := by
      unfold editInputFile
      rw [halG]
    refine ⟨⟨fun _ => hlook, fun _ => hedit⟩, ?_, ?_, ?_⟩
    · intro df hdf
      rw [hlook] at hdf
      exact Option.noConfusion hdf
    · intro df hdf
      rw [hlook] at hdf
      exact Option.noConfusion hdf
    · intro df hdf
      rw [hlook] at hdf
      exact Option.noConfusion hdf
  | some sheetMap =>
    cases halG2 : alGet sheetMap (effSheetName q.sheetName) with
    | none =>
      have hlook : lookupSheet r q.fileId (effSheetName q.sheetName) = none := by
        unfold lookupSheet
        rw [halG, Option.some_bind, halG2]
      have hedit : editInputFile r q = .error .notFound := by
        simp only [editInputFile, halG, halG2]
      refine ⟨⟨fun _ => hlook, fun _ => hedit⟩, ?_, ?_, ?_⟩
      · intro df hdf
        rw [hlook] at hdf
        exact Option.noConfusion hdf
      · intro df hdf
        rw [hlook] at hdf
        exact Option.noConfusion hdf
      · intro df hdf
        rw [hlook] at hdf
        exact Option.noConfusion hdf
    | some df0 =>
      have hlook : lookupSheet r q.fileId (effSheetName q.sheetName) = some df0 := by
        unfold lookupSheet
        rw [halG, Option.some_bind, halG2]
      by_cases hser : q.seriesName ∈ df0.rows.map (fun row => row.1)
      · by_cases hlab : q.label ∈ timeColsOf r q.fileId (effSheetName q.sheetName)
        · have hedit : editInputFile r q = .ok
              { r with inputFiles := (alSet r.inputFiles q.fileId
                  (alSet sheetMap (effSheetName q.sheetName)
                    (setCell df0 q.seriesName q.label q.value))) } := by
            simp only [editInputFile, halG, halG2, if_pos hser, if_pos hlab]
          refine ⟨?_, ?_, ?_, ?_⟩
          · rw [hedit, hlook]
            exact ⟨fun h => Except.noConfusion h, fun h => Option.noConfusion h⟩
          · intro df hdf
            rw [hlook] at hdf
            have hdfeq := Option.some.inj hdf
            subst hdfeq
            rw [hedit]
            exact ⟨fun h => Except.noConfusion h, fun h => absurd hser h⟩
          · intro df hdf _
            rw [hlook] at hdf
            have hdfeq := Option.some.inj hdf
            subst hdfeq
            rw [hedit]
            exact ⟨fun h => Except.noConfusion h, fun h => absurd hlab h⟩
          · intro df hdf _ _ hlabcol hwf
            rw [hlook] at hdf
            have hdfeq := Option.some.inj hdf
            subst hdfeq
            refine ⟨_, hedit, ?_, ?_⟩
            · unfold regCell lookupSheet
              simp only [alGet_alSet_self, Option.some_bind]
              exact getCell_setCell_self df0 q.seriesName q.label q.value hser hlabcol hwf
            · intro f sn s l hne
              by_cases hf : f = q.fileId
              · subst hf
                by_cases hsn : sn = effSheetName q.sheetName
                · subst hsn
                  have hsl : s ≠ q.seriesName ∨ l ≠ q.label := by
                    rcases hne with h | h | h | h
                    · exact absurd rfl h
                    · exact absurd rfl h
                    · exact Or.inl h
                    · exact Or.inr h
                  unfold regCell lookupSheet
                  simp only [alGet_alSet_self, Option.some_bind, halG, halG2]
                  exact getCell_setCell_ne df0 q.seriesName q.label q.value s l hsl
                · unfold regCell lookupSheet
                  simp only [alGet_alSet_self, Option.some_bind, halG,
                    alGet_alSet_ne sheetMap (effSheetName q.sheetName) _ sn hsn]
              · unfold regCell lookupSheet
                rw [alGet_alSet_ne r.inputFiles q.fileId _ f hf]
        · have hedit : editInputFile r q = .error .unknownLabel := by
            simp only [editInputFile, halG, halG2, if_pos hser, if_neg hlab]
          refine ⟨?_, ?_, ?_, ?_⟩
          · rw [hedit, hlook]
            constructor
            · intro h
              exact absurd (Except.error.inj h) (by decide)
            · intro h
              exact Option.noConfusion h
          · intro df hdf
            rw [hlook] at hdf
            have hdfeq := Option.some.inj hdf
            subst hdfeq
            rw [hedit]
            constructor
            · intro h
              exact absurd (Except.error.inj h) (by decide)
            · intro h
              exact absurd hser h
          · intro df hdf _
            rw [hlook] at hdf
            have hdfeq := Option.some.inj hdf
            subst hdfeq
            rw [hedit]
            exact ⟨fun _ => hlab, fun _ => rfl⟩
          · intro df hdf _ hlab' _ _
            rw [hlook] at hdf
            have hdfeq := Option.some.inj hdf
            subst hdfeq
            exact absurd hlab' hlab
      · have hedit : editInputFile r q = .error .unknownSeries := by
          simp only [editInputFile, halG, halG2, if_neg hser]
        refine ⟨?_, ?_, ?_, ?_⟩
        · rw [hedit, hlook]
          constructor
          · intro h
            exact absurd (Except.error.inj h) (by decide)
          · intro h
            exact Option.noConfusion h
        · intro df hdf
          rw [hlook] at hdf
          have hdfeq := Option.some.inj hdf
          subst hdfeq
          rw [hedit]
          exact ⟨fun _ => hser, fun _ => rfl⟩
        · intro df hdf hser'
          rw [hlook] at hdf
          have hdfeq := Option.some.inj hdf
          subst hdfeq
          exact absurd hser' hser
        · intro df hdf hser' _ _ _
          rw [hlook] at hdf
          have hdfeq := Option.some.inj hdf
          subst hdfeq
          exact absurd hser' hser

theorem editInputFile_spec_witness :
    editInputFile
      ⟨[("f.csv", [("Quarterly", ⟨["2022.1"], [("s", [some 1])]⟩)])],
       [("f.csv", [("Quarterly", ["2022.1"])])], [], [], [], []⟩
      ⟨"f.csv", "s", "zz", 2, none⟩ = .error .unknownLabel :=
  ((editInputFile_spec
      ⟨[("f.csv", [("Quarterly", ⟨["2022.1"], [("s", [some 1])]⟩)])],
       [("f.csv", [("Quarterly", ["2022.1"])])], [], [], [], []⟩
      ⟨"f.csv", "s", "zz", 2, none⟩).2.2.1
    ⟨["2022.1"], [("s", [some 1])]⟩ (by rfl) (by decide)).mpr (by decide)

/-! ## Registry lifecycle: register, delete, bulk load (C10) -/

/-- Python `sorted(...)` on strings (`INPUT_FILE_SHEETS[file_id] =
sorted(parsed_sheets.keys())`), rendered by a stable sort. -/
def sortStrings (l : List String) : List String :=
  l.insertionSort (fun a b => a ≤ b)

/-- A parsed sheet as produced by `_parse_input_dataframe`: the series
table, its time columns, and its metadata table. -/
abbrev ParsedSheet := Table × List String × Table

/-- Shallow embedding of `_register_input_file` (src/backend/main.py:199-214):
fresh per-sheet dictionaries are written under `file_id` in the four
per-sheet maps, the format tag and the sorted sheet-name list in the other
two; an existing entry under the same id is replaced in every map. -/
def registerInputFile (r : Registry) (fileId : String)
    (parsedSheets : List (String × ParsedSheet)) (fileFormat : String) : Registry :=
  { inputFiles := (alSet r.inputFiles fileId
      (parsedSheets.foldl (fun m s => alSet m s.1 s.2.1) [])),
    inputFileColumns := (alSet r.inputFileColumns fileId
      (parsedSheets.foldl (fun m s => alSet m s.1 s.2.2.1) [])),
    inputFileSeries := (alSet r.inputFileSeries fileId
      (parsedSheets.foldl (fun m s => alSet m s.1 (s.2.1.rows.map (fun row => row.1))) [])),
    inputFileFormat := (alSet r.inputFileFormat fileId fileFormat),
    inputFileMetadata := (alSet r.inputFileMetadata fileId
      (parsedSheets.foldl (fun m s => alSet m s.1 s.2.2.2) [])),
    inputFileSheets := (alSet r.inputFileSheets fileId
      (sortStrings (parsedSheets.map (fun s => s.1)))) }

/-- Shallow embedding of `delete_input_file` (src/backend/main.py:513-523):
404 when the id is unknown to `INPUT_FILES`, otherwise pop the id from all
six maps. -/
def deleteInputFile (r : Registry) (fileId : String) : Except EditErr Registry :=
  if fileId ∈ alKeys r.inputFiles then
    .ok { inputFiles := (alErase r.inputFiles fileId),
          inputFileColumns := (alErase r.inputFileColumns fileId),
          inputFileSeries := (alErase r.inputFileSeries fileId),
          inputFileFormat := (alErase r.inputFileFormat fileId),
          inputFileMetadata := (alErase r.inputFileMetadata fileId),
          inputFileSheets := (alErase r.inputFileSheets fileId) }
  else .error .notFound

/-- The input-file operations that touch the six parallel registries:
upload/registration, deletion, the startup bulk load
(`_load_input_files`: clear every map, then register each successfully
parsed file), and cell edit.  Files whose parse fails during bulk load are
skipped by the source and therefore simply absent from the list. -/
inductive RegOp where
  | registerOp (fileId : String) (parsedSheets : List (String × ParsedSheet))
      (fileFormat : String)
  | deleteOp (fileId : String)
  | bulkLoadOp (files : List (String × List (String × ParsedSheet) × String))
  | editOp (q : EditReq)

/-- The state transition of one operation (HTTP-error branches leave the
registry unchanged). -/
def applyOp (r : Registry) : RegOp → Registry
  | .registerOp f sheets fmt => registerInputFile r f sheets fmt
  | .deleteOp f =>
    match deleteInputFile r f with
    | .ok r' => r'
    | .error _ => r
  | .bulkLoadOp files =>
    files.foldl (fun acc fi => registerInputFile acc fi.1 fi.2.1 fi.2.2) emptyRegistry
  | .editOp q =>
    match editInputFile r q with
    | .ok r' => r'
    | .error _ => r

/-- Run a sequence of operations from process start (all maps empty). -/
def runOps (ops : List RegOp) : Registry :=
  ops.foldl applyOp emptyRegistry

/-- Two maps have the same key set. -/
def sameKeys {α β : Type} (m1 : StrMap α) (m2 : StrMap β) : Prop :=
  ∀ k, k ∈ alKeys m1 ↔ k ∈ alKeys m2

/-- The sheet names stored under a file id in a two-level map. -/
def sheetKeysAt {α : Type} (m : StrMap (StrMap α)) (f : String) : List String :=
  alKeys ((alGet m f).getD [])

/-- The parallel-maps invariant: the six registries hold exactly the same
file ids, and for each file id the four per-sheet registries hold exactly
the same sheet names. -/
def RegistryInv (r : Registry) : Prop :=
  sameKeys r.inputFiles r.inputFileColumns ∧
  sameKeys r.inputFiles r.inputFileSeries ∧
  sameKeys r.inputFiles r.inputFileFormat ∧
  sameKeys r.inputFiles r.inputFileMetadata ∧
  sameKeys r.inputFiles r.inputFileSheets ∧
  (∀ f sn, sn ∈ sheetKeysAt r.inputFiles f ↔ sn ∈ sheetKeysAt r.inputFileColumns f) ∧
  (∀ f sn, sn ∈ sheetKeysAt r.inputFiles f ↔ sn ∈ sheetKeysAt r.inputFileSeries f) ∧
  (∀ f sn, sn ∈ sheetKeysAt r.inputFiles f ↔ sn ∈ sheetKeysAt r.inputFileMetadata f)

theorem registryInv_empty : RegistryInv emptyRegistry := by
  unfold RegistryInv sameKeys sheetKeysAt emptyRegistry alKeys alGet
  simp

theorem mem_alKeys_foldl_alSet {α : Type} (g : String × ParsedSheet → α) :
    ∀ (sheets : List (String × ParsedSheet)) (m0 : StrMap α) (k : String),
    k ∈ alKeys (sheets.foldl (fun m s => alSet m s.1 (g s)) m0) ↔
      k ∈ alKeys m0 ∨ k ∈ sheets.map (fun s => s.1) := by
  intro sheets
  induction sheets with
  | nil =>
    intro m0 k
    simp
  | cons s rest ih =>
    intro m0 k
    rw [List.foldl_cons, ih (alSet m0 s.1 (g s)) k, mem_alKeys_alSet]
    simp only [List.map_cons, List.mem_cons]
    tauto

theorem sheetKeysAt_alSet_self {α : Type} (m : StrMap (StrMap α)) (f : String)
    (v : StrMap α) : sheetKeysAt (alSet m f v) f = alKeys v := by
  unfold sheetKeysAt
  rw [alGet_alSet_self]
  rfl

theorem sheetKeysAt_alSet_ne {α : Type} (m : StrMap (StrMap α)) (f : String)
    (v : StrMap α) (f' : String) (h : f' ≠ f) :
    sheetKeysAt (alSet m f v) f' = sheetKeysAt m f' := by
  unfold sheetKeysAt
  rw [alGet_alSet_ne m f v f' h]

theorem sheetKeysAt_alErase_self {α : Type} (m : StrMap (StrMap α)) (f : String) :
    sheetKeysAt (alErase m f) f = [] := by
  unfold sheetKeysAt
  rw [alGet_alErase_self]
  rfl

theorem sheetKeysAt_alErase_ne {α : Type} (m : StrMap (StrMap α)) (f f' : String)
    (h : f' ≠ f) : sheetKeysAt (alErase m f) f' = sheetKeysAt m f' := by
  unfold sheetKeysAt
  rw [alGet_alErase_ne m f f' h]

theorem registerInputFile_inv (r : Registry) (f : String)
    (sheets : List (String × ParsedSheet)) (fmt : String) (h : RegistryInv r) :
    RegistryInv (registerInputFile r f sheets fmt) := by
  obtain ⟨h1, h2, h3, h4, h5, h6, h7, h8⟩ := h
  unfold registerInputFile
  refine ⟨?_, ?_, ?_, ?_, ?_, ?_, ?_, ?_⟩
  · intro k
    rw [mem_alKeys_alSet, mem_alKeys_alSet, h1 k]
  · intro k
    rw [mem_alKeys_alSet, mem_alKeys_alSet, h2 k]
  · intro k
    rw [mem_alKeys_alSet, mem_alKeys_alSet, h3 k]
  · intro k
    rw [mem_alKeys_alSet, mem_alKeys_alSet, h4 k]
  · intro k
    rw [mem_alKeys_alSet, mem_alKeys_alSet, h5 k]
  · intro f' sn
    by_cases hf : f' = f
    · subst hf
      rw [sheetKeysAt_alSet_self, sheetKeysAt_alSet_self,
        mem_alKeys_foldl_alSet, mem_alKeys_foldl_alSet]
      simp only [alKeys_nil, List.not_mem_nil, false_or]
    · rw [sheetKeysAt_alSet_ne _ _ _ _ hf, sheetKeysAt_alSet_ne _ _ _ _ hf]
      exact h6 f' sn
  · intro f' sn
    by_cases hf : f' = f
    · subst hf
      rw [sheetKeysAt_alSet_self, sheetKeysAt_alSet_self,
        mem_alKeys_foldl_alSet, mem_alKeys_foldl_alSet]
      simp only [alKeys_nil, List.not_mem_nil, false_or]
    · rw [sheetKeysAt_alSet_ne _ _ _ _ hf, sheetKeysAt_alSet_ne _ _ _ _ hf]
      exact h7 f' sn
  · intro f' sn
    by_cases hf : f' = f
    · subst hf
      rw [sheetKeysAt_alSet_self, sheetKeysAt_alSet_self,
        mem_alKeys_foldl_alSet, mem_alKeys_foldl_alSet]
    · rw [sheetKeysAt_alSet_ne _ _ _ _ hf, sheetKeysAt_alSet_ne _ _ _ _ hf]
      exact h8 f' sn

theorem applyOp_deleteOp (r : Registry) (f : String) :
    applyOp r (.deleteOp f) =
      if f ∈ alKeys r.inputFiles then
        ⟨alErase r.inputFiles f, alErase r.inputFileColumns f, alErase r.inputFileSeries f,
         alErase r.inputFileFormat f, alErase r.inputFileMetadata f,
         alErase r.inputFileSheets f⟩
      else r := by
  show (match deleteInputFile r f with | .ok r' => r' | .error _ => r) = _
  unfold deleteInputFile
  by_cases hmem : f ∈ alKeys r.inputFiles
  · rw [if_pos hmem, if_pos hmem]
  · rw [if_neg hmem, if_neg hmem]

theorem deleteOp_inv (r : Registry) (f : String) (h : RegistryInv r) :
    RegistryInv (applyOp r (.deleteOp f)) := by
  obtain ⟨h1, h2, h3, h4, h5, h6, h7, h8⟩ := h
  rw [applyOp_deleteOp]
  by_cases hmem : f ∈ alKeys r.inputFiles
  · rw [if_pos hmem]
    refine ⟨?_, ?_, ?_, ?_, ?_, ?_, ?_, ?_⟩
    · intro k
      rw [mem_alKeys_alErase, mem_alKeys_alErase, h1 k]
    · intro k
      rw [mem_alKeys_alErase, mem_alKeys_alErase, h2 k]
    · intro k
      rw [mem_alKeys_alErase, mem_alKeys_alErase, h3 k]
    · intro k
      rw [mem_alKeys_alErase, mem_alKeys_alErase, h4 k]
    · intro k
      rw [mem_alKeys_alErase, mem_alKeys_alErase, h5 k]
    · intro f' sn
      by_cases hf : f' = f
      · subst hf
        rw [sheetKeysAt_alErase_self, sheetKeysAt_alErase_self]
      · rw [sheetKeysAt_alErase_ne _ _ _ hf, sheetKeysAt_alErase_ne _ _ _ hf]
        exact h6 f' sn
    · intro f' sn
      by_cases hf : f' = f
      · subst hf
        rw [sheetKeysAt_alErase_self, sheetKeysAt_alErase_self]
      · rw [sheetKeysAt_alErase_ne _ _ _ hf, sheetKeysAt_alErase_ne _ _ _ hf]
        exact h7 f' sn
    · intro f' sn
      by_cases hf : f' = f
      · subst hf
        rw [sheetKeysAt_alErase_self, sheetKeysAt_alErase_self]
      · rw [sheetKeysAt_alErase_ne _ _ _ hf, sheetKeysAt_alErase_ne _ _ _ hf]
        exact h8 f' sn
  · rw [if_neg hmem]
    exact ⟨h1, h2, h3, h4, h5, h6, h7, h8⟩

theorem editInputFile_ok_shape (r : Registry) (q : EditReq) (r' : Registry)
    (h : editInputFile r q = .ok r') :
    ∃ sheetMap df0,
      alGet r.inputFiles q.fileId = some sheetMap ∧
      alGet sheetMap (effSheetName q.sheetName) = some df0 ∧
      r' = { r with inputFiles := (alSet r.inputFiles q.fileId
        (alSet sheetMap (effSheetName q.sheetName)
          (setCell df0 q.seriesName q.label q.value))) } := by
  cases halG : alGet r.inputFiles q.fileId with
  | none =>
    have hedit : editInputFile r q = .error .notFound := by
      simp only [editInputFile, halG]
    rw [hedit] at h
    exact Except.noConfusion h
  | some sheetMap =>
    cases halG2 : alGet sheetMap (effSheetName q.sheetName) with
    | none =>
      have hedit : editInputFile r q = .error .notFound := by
        simp only [editInputFile, halG, halG2]
      rw [hedit] at h
      exact Except.noConfusion h
    | some df0 =>
      by_cases hser : q.seriesName ∈ df0.rows.map (fun row => row.1)
      · by_cases hlab : q.label ∈ timeColsOf r q.fileId (effSheetName q.sheetName)
        · have hedit : editInputFile r q = .ok
              { r with inputFiles := (alSet r.inputFiles q.fileId
                  (alSet sheetMap (effSheetName q.sheetName)
                    (setCell df0 q.seriesName q.label q.value))) } := by
            simp only [editInputFile, halG, halG2, if_pos hser, if_pos hlab]
          rw [hedit] at h
          exact ⟨sheetMap, df0, rfl, halG2, (Except.ok.inj h).symm⟩
        · have hedit : editInputFile r q = .error .unknownLabel := by
            simp only [editInputFile, halG, halG2, if_pos hser, if_neg hlab]
          rw [hedit] at h
          exact Except.noConfusion h
      · have hedit : editInputFile r q = .error .unknownSeries := by
          simp only [editInputFile, halG, halG2, if_neg hser]
        rw [hedit] at h
        exact Except.noConfusion h

theorem editOp_inv (r : Registry) (q : EditReq) (h : RegistryInv r) :
    RegistryInv (applyOp r (.editOp q)) := by
  show RegistryInv (match editInputFile r q with
    | .ok r' => r'
    | .error _ => r)
  cases hedit : editInputFile r q with
  | error e => exact h
  | ok r' =>
    obtain ⟨sheetMap, df0, halG, halG2, hshape⟩ := editInputFile_ok_shape r q r' hedit
    subst hshape
    obtain ⟨h1, h2, h3, h4, h5, h6, h7, h8⟩ := h
    have hfmem : q.fileId ∈ alKeys r.inputFiles := by
      rw [← alGet_isSome_iff_mem, halG]
      rfl
    have hkeys : ∀ k, k ∈ alKeys (alSet r.inputFiles q.fileId
        (alSet sheetMap (effSheetName q.sheetName)
          (setCell df0 q.seriesName q.label q.value))) ↔ k ∈ alKeys r.inputFiles := by
      intro k
      rw [mem_alKeys_alSet]
      constructor
      · intro hk
        rcases hk with hk | hk
        · exact hk
        · exact hk ▸ hfmem
      · intro hk
        exact Or.inl hk
    have hsheets : ∀ f' sn, sn ∈ sheetKeysAt (alSet r.inputFiles q.fileId
        (alSet sheetMap (effSheetName q.sheetName)
          (setCell df0 q.seriesName q.label q.value))) f' ↔
        sn ∈ sheetKeysAt r.inputFiles f' := by
      intro f' sn
      by_cases hf : f' = q.fileId
      · subst hf
        rw [sheetKeysAt_alSet_self]
        have hsmem : effSheetName q.sheetName ∈ alKeys sheetMap := by
          rw [← alGet_isSome_iff_mem, halG2]
          rfl
        rw [mem_alKeys_alSet]
        unfold sheetKeysAt
        rw [halG]
        constructor
        · intro hk
          rcases hk with hk | hk
          · exact hk
          · exact hk ▸ hsmem
        · intro hk
          exact Or.inl hk
      · rw [sheetKeysAt_alSet_ne _ _ _ _ hf]
    refine ⟨?_, ?_, ?_, ?_, ?_, ?_, ?_, ?_⟩
    · intro k
      rw [hkeys k]
      exact h1 k
    · intro k
      rw [hkeys k]
      exact h2 k
    · intro k
      rw [hkeys k]
      exact h3 k
    · intro k
      rw [hkeys k]
      exact h4 k
    · intro k
      rw [hkeys k]
      exact h5 k
    · intro f' sn
      rw [hsheets f' sn]
      exact h6 f' sn
    · intro f' sn
      rw [hsheets f' sn]
      exact h7 f' sn
    · intro f' sn
      rw [hsheets f' sn]
      exact h8 f' sn

theorem bulkLoad_inv (files : List (String × List (String × ParsedSheet) × String)) :
    RegistryInv (files.foldl
      (fun acc fi => registerInputFile acc fi.1 fi.2.1 fi.2.2) emptyRegistry) := by
  have haux : ∀ (fs : List (String × List (String × ParsedSheet) × String))
      (r : Registry), RegistryInv r →
      RegistryInv (fs.foldl (fun acc fi => registerInputFile acc fi.1 fi.2.1 fi.2.2) r) := by
    intro fs
    induction fs with
    | nil => intro r h; exact h
    | cons fi rest ih =>
      intro r h
      exact ih (registerInputFile r fi.1 fi.2.1 fi.2.2)
        (registerInputFile_inv r fi.1 fi.2.1 fi.2.2 h)
  exact haux files emptyRegistry registryInv_empty

theorem applyOp_inv (r : Registry) (op : RegOp) (h : RegistryInv r) :
    RegistryInv (applyOp r op) := by
  cases op with
  | registerOp f sheets fmt => exact registerInputFile_inv r f sheets fmt h
  | deleteOp f => exact deleteOp_inv r f h
  | bulkLoadOp files => exact bulkLoad_inv files
  | editOp q => exact editOp_inv r q h

/-- C10: after every sequence of input-file operations (bulk load,
registration, deletion, edit) starting from process start, the six parallel
registries hold exactly the same file ids and, per file id, the four
per-sheet registries hold exactly the same sheet names; registration puts
the id into all six maps together; deletion removes it from all six
together. -/
theorem registry_parallel_maps_invariant :
    (∀ ops : List RegOp, RegistryInv (runOps ops)) ∧
    (∀ (r : Registry) (f : String) (sheets : List (String × ParsedSheet)) (fmt : String),
      f ∈ alKeys (registerInputFile r f sheets fmt).inputFiles ∧
      f ∈ alKeys (registerInputFile r f sheets fmt).inputFileColumns ∧
      f ∈ alKeys (registerInputFile r f sheets fmt).inputFileSeries ∧
      f ∈ alKeys (registerInputFile r f sheets fmt).inputFileFormat ∧
      f ∈ alKeys (registerInputFile r f sheets fmt).inputFileMetadata ∧
      f ∈ alKeys (registerInputFile r f sheets fmt).inputFileSheets) ∧
    (∀ (r : Registry) (f : String), RegistryInv r →
      f ∉ alKeys ((applyOp r (.deleteOp f)).inputFiles) ∧
      f ∉ alKeys ((applyOp r (.deleteOp f)).inputFileColumns) ∧
      f ∉ alKeys ((applyOp r (.deleteOp f)).inputFileSeries) ∧
      f ∉ alKeys ((applyOp r (.deleteOp f)).inputFileFormat) ∧
      f ∉ alKeys ((applyOp r (.deleteOp f)).inputFileMetadata) ∧
      f ∉ alKeys ((applyOp r (.deleteOp f)).inputFileSheets)) := by
  refine ⟨?_, ?_, ?_⟩
  · intro ops
    have haux : ∀ (l : List RegOp) (r : Registry), RegistryInv r →
        RegistryInv (l.foldl applyOp r) := by
      intro l
      induction l with
      | nil => intro r h; exact h
      | cons op rest ih =>
        intro r h
        exact ih (applyOp r op) (applyOp_inv r op h)
    exact haux ops emptyRegistry registryInv_empty
  · intro r f sheets fmt
    unfold registerInputFile
    refine ⟨?_, ?_, ?_, ?_, ?_, ?_⟩ <;>
      exact (mem_alKeys_alSet _ _ _ _).mpr (Or.inr rfl)
  · intro r f hInv
    obtain ⟨h1, h2, h3, h4, h5, _, _, _⟩ := hInv
    rw [applyOp_deleteOp]
    by_cases hmem : f ∈ alKeys r.inputFiles
    · rw [if_pos hmem]
      refine ⟨?_, ?_, ?_, ?_, ?_, ?_⟩ <;>
        · intro hk
          exact ((mem_alKeys_alErase _ _ _).mp hk).2 rfl
    · rw [if_neg hmem]
      exact ⟨hmem, fun hk => hmem ((h1 f).mpr hk), fun hk => hmem ((h2 f).mpr hk),
        fun hk => hmem ((h3 f).mpr hk), fun hk => hmem ((h4 f).mpr hk),
        fun hk => hmem ((h5 f).mpr hk)⟩

theorem registry_parallel_maps_invariant_witness :
    "f.csv" ∉ alKeys ((applyOp emptyRegistry (.deleteOp "f.csv")).inputFiles) :=
  (registry_parallel_maps_invariant.2.2 emptyRegistry "f.csv"
    (registry_parallel_maps_invariant.1 [])).1

/-! ## Transform Engine: `_apply_transform` (C1, C9) -/

/-- A coerced timestamp: the calendar month (encoded `year * 12 + (month - 1)`)
and the day inside the month.  `resample("M")` buckets by `month`,
`resample("Q")` by `month / 3`; chronological order is lexicographic. -/
structure SDate where
  month : Nat
  day : Nat
deriving DecidableEq, Repr

/-- Calendar month-end bucket of a date (`resample("M")`). -/
def SDate.monthB (d : SDate) : Nat := d.month

/-- Calendar quarter-end bucket of a date (`resample("Q")`). -/
def SDate.quarterB (d : SDate) : Nat := d.month / 3

def sdateLE (a b : SDate) : Prop :=
  a.month < b.month ∨ (a.month = b.month ∧ a.day ≤ b.day)

instance : DecidableRel sdateLE := fun a b => by
  unfold sdateLE
  infer_instance

/-- One row of `working = df[[date_column] + series].copy()` after
`pd.to_datetime(..., errors="coerce")`: the possibly-missing coerced date
and the `k` series cells in request order. -/
abbrev TRow := Option SDate × List (Option ℚ)

abbrev DRow := SDate × List (Option ℚ)

/-- `working.dropna(subset=[date_column])`. -/
def dropnaDates (rows : List TRow) : List DRow :=
  rows.filterMap (fun r => match r.1 with
    | some d => some (d, r.2)
    | none => none)

/-- `working.sort_values(date_column)`: sort ascending by date. -/
def sortByDate (rows : List DRow) : List DRow :=
  List.insertionSort (fun a b => sdateLE a.1 b.1) rows

/-- The non-missing values of series column `j` among the rows falling in
bucket `b` (pandas `mean` skips NaN). -/
def bucketVals (rows : List DRow) (bucket : SDate → Nat) (b j : Nat) : List ℚ :=
  rows.filterMap (fun r => if bucket r.1 = b then r.2.getD j none else none)

/-- Per-bucket mean of series column `j`: NaN (`none`) when the bucket holds
no non-missing value in that column. -/
def bucketMean (rows : List DRow) (bucket : SDate → Nat) (b j : Nat) : Option ℚ :=
  if bucketVals rows bucket b j = [] then none
  else some ((bucketVals rows bucket b j).sum / ((bucketVals rows bucket b j).length : ℚ))

/-- The smallest bucket of a non-empty row list (`working.index.min()`
composed with the bucket map; the fold starts from the head's bucket, which
is itself among the mapped buckets). -/
def minBucket (bucket : SDate → Nat) (r0 : DRow) (rest : List DRow) : Nat :=
  ((r0 :: rest).map (fun r => bucket r.1)).foldl min (bucket r0.1)

/-- The largest bucket of a non-empty row list (`working.index.max()`
composed with the bucket map). -/
def maxBucket (bucket : SDate → Nat) (r0 : DRow) (rest : List DRow) : Nat :=
  ((r0 :: rest).map (fun r => bucket r.1)).foldl max (bucket r0.1)

/-- `working.resample("M"/"Q").mean()`: pandas materializes one row per
calendar bucket over the whole regular range from the smallest to the
largest present bucket (buckets with no observations get NaN means), each
row holding the `k` per-column means. -/
def resampleMean (bucket : SDate → Nat) (k : Nat) (rows : List DRow) :
    List (Nat × List (Option ℚ)) :=
  match rows with
  | [] => []
  | r0 :: rest =>
    (List.range' (minBucket bucket r0 rest)
        (maxBucket bucket r0 rest + 1 - minBucket bucket r0 rest)).map
      (fun b => (b, (List.range k).map (fun j => bucketMean (r0 :: rest) bucket b j)))

/-- NaN-propagating subtraction of `diff()`: current row minus previous
row, elementwise (`sub2 prev cur`). -/
def sub2 : Option ℚ → Option ℚ → Option ℚ
  | some x, some y => some (y - x)
  | _, _ => none

/-- `resampled.diff()`: the first row becomes all-NaN; every later row is
the elementwise difference with the preceding calendar bucket. -/
def diffRows (rs : List (Nat × List (Option ℚ))) : List (Nat × List (Option ℚ)) :=
  match rs with
  | [] => []
  | r :: rest =>
    (r.1, r.2.map (fun _ => none)) ::
      List.zipWith (fun p c => (c.1, List.zipWith sub2 p.2 c.2)) (r :: rest) rest

/-- `.dropna()`: drop every row holding at least one NaN. -/
def dropnaAll (rs : List (Nat × List (Option ℚ))) : List (Nat × List (Option ℚ)) :=
  rs.filter (fun r => r.2.all Option.isSome)

/-- The monthly/quarterly-change pipeline of `_apply_transform`
(src/backend/main.py:318-333): drop rows with unparseable dates, sort by
date, set the date as index, resample with per-bucket means, first
difference, drop rows with missing values, and restore the bucket as a
regular field (`reset_index`). -/
def applyTransformChange (bucket : SDate → Nat) (k : Nat) (rows : List TRow) :
    List (Nat × List (Option ℚ)) :=
  dropnaAll (diffRows (resampleMean bucket k (sortByDate (dropnaDates rows))))

inductive TransformMode where
  | raw
  | monthlyChange
  | quarterlyChange
deriving DecidableEq, Repr

inductive Transformed where
  | rawOut : List DRow → Transformed
  | changeOut : List (Nat × List (Option ℚ)) → Transformed
deriving DecidableEq, Repr

/-- Shallow embedding of `_apply_transform`: the mode dispatch. -/
def applyTransform (k : Nat) (rows : List TRow) : TransformMode → Transformed
  | .raw => .rawOut (sortByDate (dropnaDates rows))
  | .monthlyChange => .changeOut (applyTransformChange SDate.monthB k rows)
  | .quarterlyChange => .changeOut (applyTransformChange SDate.quarterB k rows)

def sortNat (l : List Nat) : List Nat :=
  List.insertionSort (fun a b => a ≤ b) l

/-- Modelled from the claim's words (C1 as stated): average within each
*present* bucket only (absent buckets never materialize), difference
consecutive *present* buckets, and drop the first row.  Used only to
compare the claim against the source pipeline. -/
def claimedChange (bucket : SDate → Nat) (k : Nat) (rows : List TRow) :
    List (Nat × List (Option ℚ)) :=
  let working := sortByDate (dropnaDates rows)
  let present := sortNat ((working.map (fun r => bucket r.1)).dedup)
  match present with
  | [] => []
  | _ :: restB =>
    List.zipWith (fun p c => (c, List.zipWith sub2
      ((List.range k).map (fun j => bucketMean working bucket p j))
      ((List.range k).map (fun j => bucketMean working bucket c j)))) present restB

/-- The number of distinct months among the valid (parseable) dates. -/
def distinctMonthCount (rows : List TRow) : Nat :=
  ((dropnaDates rows).map (fun r => r.1.month)).dedup.length

/-- C1 counterexample: with observations in months 0 and 2 only, pandas
materializes the empty month 1 with a NaN mean, `diff` therefore yields NaN
for both month 1 and month 2, and `dropna` empties the result — whereas the
claim (difference between consecutive *present* buckets) predicts one row,
month 2 with value `5 - 1 = 4`. -/
theorem applyTransform_gap_counterexample :
    applyTransformChange SDate.monthB 1
      [(some ⟨0, 5⟩, [some 1]), (some ⟨2, 5⟩, [some 5])] = [] ∧
    claimedChange SDate.monthB 1
      [(some ⟨0, 5⟩, [some 1]), (some ⟨2, 5⟩, [some 5])] = [(2, [some 4])] := by
  constructor
  · with_unfolding_all decide
  · with_unfolding_all decide

/-- The difference row of calendar bucket `b` (given the smallest bucket
`bmin`): entirely missing for the first bucket, otherwise the per-column
NaN-propagating difference of the bucket means of `b` and of the preceding
calendar bucket `b - 1`. -/
def diffValsAt (bucket : SDate → Nat) (k : Nat) (working : List DRow) (bmin b : Nat) :
    List (Option ℚ) :=
  if b = bmin then (List.range k).map (fun _ => none)
  else (List.range k).map (fun j =>
    sub2 (bucketMean working bucket (b - 1) j) (bucketMean working bucket b j))

/-- The amended description of the change pipeline on the cleaned, sorted
rows: one output row per calendar bucket (over the full range from smallest
to largest present bucket) whose difference row carries no missing value,
in calendar order, holding that difference row. -/
def amendedCore (bucket : SDate → Nat) (k : Nat) : List DRow → List (Nat × List (Option ℚ))
  | [] => []
  | r0 :: rest =>
    ((List.range' (minBucket bucket r0 rest)
        (maxBucket bucket r0 rest + 1 - minBucket bucket r0 rest)).filter
      (fun b => (diffValsAt bucket k (r0 :: rest) (minBucket bucket r0 rest) b).all
        Option.isSome)).map
      (fun b => (b, diffValsAt bucket k (r0 :: rest) (minBucket bucket r0 rest) b))

/-- The amended claim's transform: average over every calendar bucket of the
full range (empty buckets carrying missing means), difference consecutive
calendar buckets (the first bucket's difference entirely missing), keep
exactly the rows with no missing value, restore the bucket as a field. -/
def amendedChange (bucket : SDate → Nat) (k : Nat) (rows : List TRow) :
    List (Nat × List (Option ℚ)) :=
  amendedCore bucket k (sortByDate (dropnaDates rows))

theorem foldl_min_le_init (l : List Nat) : ∀ i : Nat, l.foldl min i ≤ i := by
  induction l with
  | nil => intro i; exact le_refl i
  | cons x xs ih =>
    intro i
    exact le_trans (ih (min i x)) (min_le_left i x)

theorem init_le_foldl_max (l : List Nat) : ∀ i : Nat, i ≤ l.foldl max i := by
  induction l with
  | nil => intro i; exact le_refl i
  | cons x xs ih =>
    intro i
    exact le_trans (le_max_left i x) (ih (max i x))

theorem foldl_min_mem (l : List Nat) : ∀ i : Nat, l.foldl min i = i ∨ l.foldl min i ∈ l := by
  induction l with
  | nil => intro i; exact Or.inl rfl
  | cons x xs ih =>
    intro i
    rcases ih (min i x) with h | h
    · rcases min_choice i x with hm | hm
      · exact Or.inl (by rw [List.foldl_cons, h, hm])
      · refine Or.inr ?_
        rw [List.foldl_cons, h, hm]
        exact List.mem_cons_self x xs
    · exact Or.inr (List.mem_cons_of_mem x h)

theorem minBucket_le_maxBucket (bucket : SDate → Nat) (r0 : DRow) (rest : List DRow) :
    minBucket bucket r0 rest ≤ maxBucket bucket r0 rest :=
  le_trans (foldl_min_le_init _ (bucket r0.1)) (init_le_foldl_max _ (bucket r0.1))

theorem minBucket_mem (bucket : SDate → Nat) (r0 : DRow) (rest : List DRow) :
    minBucket bucket r0 rest ∈ (r0 :: rest).map (fun r => bucket r.1) := by
  unfold minBucket
  rcases foldl_min_mem ((r0 :: rest).map (fun r => bucket r.1)) (bucket r0.1) with h | h
  · rw [h]
    exact List.mem_map_of_mem _ (List.mem_cons_self r0 rest)
  · exact h

theorem bucketMean_isSome_mem (rows : List DRow) (bucket : SDate → Nat) (b j : Nat)
    (h : (bucketMean rows bucket b j).isSome = true) : ∃ r ∈ rows, bucket r.1 = b := by
  unfold bucketMean at h
  by_cases hv : bucketVals rows bucket b j = []
  · rw [if_pos hv] at h
    exact absurd h (by simp)
  · obtain ⟨x, hx⟩ := List.exists_mem_of_ne_nil _ hv
    unfold bucketVals at hx
    obtain ⟨r, hr, hval⟩ := List.mem_filterMap.mp hx
    by_cases hb : bucket r.1 = b
    · exact ⟨r, hr, hb⟩
    · rw [if_neg hb] at hval
      exact Option.noConfusion hval

theorem zipWith_diff_range' (g : Nat → Nat × List (Option ℚ)) :
    ∀ (n s : Nat),
    List.zipWith (fun p c => (c.1, List.zipWith sub2 p.2 c.2))
        (g s :: (List.range' (s + 1) n).map g) ((List.range' (s + 1) n).map g) =
      (List.range' (s + 1) n).map
        (fun b => ((g b).1, List.zipWith sub2 (g (b - 1)).2 (g b).2)) := by
  intro n
  induction n with
  | zero => intro s; rfl
  | succ m ih =>
    intro s
    rw [List.range'_succ]
    simp only [List.map_cons, List.zipWith_cons_cons]
    rw [ih (s + 1), Nat.add_sub_cancel]

theorem changeCoreEq (bucket : SDate → Nat) (k : Nat) :
    ∀ working : List DRow,
    dropnaAll (diffRows (resampleMean bucket k working)) = amendedCore bucket k working := by
  intro working
  cases working with
  | nil => rfl
  | cons r0 rest =>
    have hminmax := minBucket_le_maxBucket bucket r0 rest
    have hlen : maxBucket bucket r0 rest + 1 - minBucket bucket r0 rest =
        (maxBucket bucket r0 rest - minBucket bucket r0 rest) + 1 := by omega
    show dropnaAll (diffRows ((List.range' (minBucket bucket r0 rest)
          (maxBucket bucket r0 rest + 1 - minBucket bucket r0 rest)).map
        (fun b => (b, (List.range k).map (fun j => bucketMean (r0 :: rest) bucket b j))))) =
      ((List.range' (minBucket bucket r0 rest)
          (maxBucket bucket r0 rest + 1 - minBucket bucket r0 rest)).filter
        (fun b => (diffValsAt bucket k (r0 :: rest) (minBucket bucket r0 rest) b).all
          Option.isSome)).map
        (fun b => (b, diffValsAt bucket k (r0 :: rest) (minBucket bucket r0 rest) b))
    rw [hlen, List.range'_succ]
    simp only [List.map_cons, diffRows]
    rw [zipWith_diff_range'
      (fun b => (b, (List.range k).map (fun j => bucketMean (r0 :: rest) bucket b j)))
      (maxBucket bucket r0 rest - minBucket bucket r0 rest) (minBucket bucket r0 rest)]
    simp only [List.map_map, Function.comp_def, List.zipWith_map, List.zipWith_same,
      dropnaAll, List.filter_cons]
    have hdv : ∀ b ∈ List.range' (minBucket bucket r0 rest + 1)
        (maxBucket bucket r0 rest - minBucket bucket r0 rest),
        diffValsAt bucket k (r0 :: rest) (minBucket bucket r0 rest) b =
          (List.range k).map (fun j =>
            sub2 (bucketMean (r0 :: rest) bucket (b - 1) j)
              (bucketMean (r0 :: rest) bucket b j)) := by
      intro b hb
      obtain ⟨i, _, hbi⟩ := List.mem_range'.mp hb
      have hbne : b ≠ minBucket bucket r0 rest := by omega
      unfold diffValsAt
      rw [if_neg hbne]
    have hdvmin : diffValsAt bucket k (r0 :: rest) (minBucket bucket r0 rest)
        (minBucket bucket r0 rest) = (List.range k).map (fun _ => none) := by
      unfold diffValsAt
      rw [if_pos rfl]
    rw [hdvmin, apply_ite (List.map (fun b =>
      (b, diffValsAt bucket k (r0 :: rest) (minBucket bucket r0 rest) b)))]
    have htail : List.filter (fun r => r.2.all Option.isSome)
        ((List.range' (minBucket bucket r0 rest + 1)
            (maxBucket bucket r0 rest - minBucket bucket r0 rest)).map
          (fun b => (b, (List.range k).map (fun j =>
            sub2 (bucketMean (r0 :: rest) bucket (b - 1) j)
              (bucketMean (r0 :: rest) bucket b j))))) =
        ((List.range' (minBucket bucket r0 rest + 1)
            (maxBucket bucket r0 rest - minBucket bucket r0 rest)).filter
          (fun b => (diffValsAt bucket k (r0 :: rest) (minBucket bucket r0 rest) b).all
            Option.isSome)).map
          (fun b => (b, diffValsAt bucket k (r0 :: rest) (minBucket bucket r0 rest) b)) := by
      rw [List.filter_map]
      have hPq : List.filter ((fun (r : Nat × List (Option ℚ)) => r.2.all Option.isSome) ∘
            (fun b => (b, (List.range k).map (fun j =>
              sub2 (bucketMean (r0 :: rest) bucket (b - 1) j)
                (bucketMean (r0 :: rest) bucket b j)))))
          (List.range' (minBucket bucket r0 rest + 1)
            (maxBucket bucket r0 rest - minBucket bucket r0 rest)) =
          List.filter (fun b =>
            (diffValsAt bucket k (r0 :: rest) (minBucket bucket r0 rest) b).all Option.isSome)
          (List.range' (minBucket bucket r0 rest + 1)
            (maxBucket bucket r0 rest - minBucket bucket r0 rest)) := by
        apply List.filter_congr
        intro b hb
        simp only [Function.comp_apply]
        rw [hdv b hb]
      rw [hPq]
      apply List.map_congr_left
      intro b hb
      rw [hdv b (List.mem_of_mem_filter hb)]
    by_cases hhead : (((List.range k).map fun _ => (none : Option ℚ)).all Option.isSome) = true
    · rw [if_pos hhead, if_pos hhead, List.map_cons, htail, hdvmin]
    · rw [if_neg hhead, if_neg hhead, htail]

/-- C1 (amended): for every table, date column, series-column list and mode
monthly_change (resp. quarterly_change), the transform averages all values
falling into each calendar month-end (resp. quarter-end) bucket over the
full calendar range from the earliest to the latest present bucket — empty
buckets carry missing means rather than being absent — then computes the
first difference between consecutive *calendar* buckets (the first bucket's
difference row is entirely missing, and a difference is missing whenever
either neighbouring bucket mean is missing, in particular right after an
empty bucket), then drops every row containing any missing value (hence the
first row whenever at least one series column is requested), and restores
the date bucket as a regular field. -/
theorem applyTransform_change_spec :
    (∀ (k : Nat) (rows : List TRow),
      applyTransform k rows .monthlyChange =
        .changeOut (amendedChange SDate.monthB k rows)) ∧
    (∀ (k : Nat) (rows : List TRow),
      applyTransform k rows .quarterlyChange =
        .changeOut (amendedChange SDate.quarterB k rows)) := by
  constructor
  · intro k rows
    exact congrArg Transformed.changeOut
      (changeCoreEq SDate.monthB k (sortByDate (dropnaDates rows)))
  · intro k rows
    exact congrArg Transformed.changeOut
      (changeCoreEq SDate.quarterB k (sortByDate (dropnaDates rows)))

theorem sub2_isSome {x y : Option ℚ} (h : (sub2 x y).isSome = true) :
    x.isSome = true ∧ y.isSome = true := by
  cases x <;> cases y <;> simp [sub2] at h ⊢

/-- C9 counterexample: with an empty series list, `dropna()` has no column
to find NaN in and keeps every materialized bucket row, including the first
one: two distinct months produce 2 output rows, not at most 1, and the
earliest bucket appears. -/
theorem monthlyChange_empty_series_counterexample :
    applyTransformChange SDate.monthB 0 [(some ⟨0, 1⟩, []), (some ⟨1, 1⟩, [])] =
      [(0, []), (1, [])] ∧
    distinctMonthCount [(some ⟨0, 1⟩, ([] : List (Option ℚ))), (some ⟨1, 1⟩, [])] = 2 ∧
    ¬((applyTransformChange SDate.monthB 0
        [(some ⟨0, 1⟩, []), (some ⟨1, 1⟩, [])]).length ≤
      distinctMonthCount [(some ⟨0, 1⟩, ([] : List (Option ℚ))), (some ⟨1, 1⟩, [])] - 1) := by
  refine ⟨by decide, by decide, by decide⟩

/-- C9 (amended): provided at least one series column is requested, the
monthly_change transform produces at most (number of distinct months among
the input's valid dates) minus one output rows, every output row belongs
to a month actually present in the data, and the first (earliest) month
bucket never appears in the output (every output bucket has a strictly
earlier present month). -/
theorem monthlyChange_bound (k : Nat) (rows : List TRow) (hk : 0 < k) :
    (applyTransformChange SDate.monthB k rows).length ≤ distinctMonthCount rows - 1 ∧
    (∀ p ∈ applyTransformChange SDate.monthB k rows,
      p.1 ∈ (dropnaDates rows).map (fun r => r.1.month) ∧
      ∃ m ∈ (dropnaDates rows).map (fun r => r.1.month), m < p.1) := by
  have heq : applyTransformChange SDate.monthB k rows =
      amendedCore SDate.monthB k (sortByDate (dropnaDates rows)) :=
    changeCoreEq SDate.monthB k (sortByDate (dropnaDates rows))
  have hperm : (sortByDate (dropnaDates rows)).Perm (dropnaDates rows) :=
    List.perm_insertionSort _ _
  have hmonths : ∀ x : Nat, x ∈ (sortByDate (dropnaDates rows)).map (fun r => r.1.month) ↔
      x ∈ (dropnaDates rows).map (fun r => r.1.month) :=
    fun x => (hperm.map (fun r => r.1.month)).mem_iff
  rw [heq]
  cases hw : sortByDate (dropnaDates rows) with
  | nil =>
    refine ⟨by simp [amendedCore], ?_⟩
    intro p hp
    simp [amendedCore] at hp
  | cons r0 rest =>
    rw [hw] at hmonths
    simp only [amendedCore]
    have hBmem : minBucket SDate.monthB r0 rest ∈
        (dropnaDates rows).map (fun r => r.1.month) := by
      refine (hmonths _).mp ?_
      exact minBucket_mem SDate.monthB r0 rest
    have hbfacts : ∀ b ∈ (List.range' (minBucket SDate.monthB r0 rest)
        (maxBucket SDate.monthB r0 rest + 1 - minBucket SDate.monthB r0 rest)).filter
          (fun b => (diffValsAt SDate.monthB k (r0 :: rest)
            (minBucket SDate.monthB r0 rest) b).all Option.isSome),
        b ∈ (dropnaDates rows).map (fun r => r.1.month) ∧
          minBucket SDate.monthB r0 rest < b := by
      intro b hb
      have hq := List.of_mem_filter hb
      have hbr := List.mem_of_mem_filter hb
      obtain ⟨i, hi, hbi⟩ := List.mem_range'.mp hbr
      have hne : b ≠ minBucket SDate.monthB r0 rest := by
        intro hbeq
        rw [hbeq] at hq
        unfold diffValsAt at hq
        rw [if_pos rfl] at hq
        have h0 : (none : Option ℚ) ∈ (List.range k).map (fun _ => (none : Option ℚ)) :=
          List.mem_map.mpr ⟨0, List.mem_range.mpr hk, rfl⟩
        have := List.all_eq_true.mp hq none h0
        simp at this
      have hlt : minBucket SDate.monthB r0 rest < b := by omega
      unfold diffValsAt at hq
      rw [if_neg hne] at hq
      have h0mem : sub2 (bucketMean (r0 :: rest) SDate.monthB (b - 1) 0)
            (bucketMean (r0 :: rest) SDate.monthB b 0) ∈
          (List.range k).map (fun j => sub2 (bucketMean (r0 :: rest) SDate.monthB (b - 1) j)
            (bucketMean (r0 :: rest) SDate.monthB b j)) :=
        List.mem_map.mpr ⟨0, List.mem_range.mpr hk, rfl⟩
      have hsome := List.all_eq_true.mp hq _ h0mem
      obtain ⟨r, hr, hrb⟩ :=
        bucketMean_isSome_mem (r0 :: rest) SDate.monthB b 0 (sub2_isSome hsome).2
      refine ⟨(hmonths b).mp (List.mem_map.mpr ⟨r, hr, hrb⟩), hlt⟩
    constructor
    · rw [List.length_map]
      have hnodup : ((List.range' (minBucket SDate.monthB r0 rest)
          (maxBucket SDate.monthB r0 rest + 1 - minBucket SDate.monthB r0 rest)).filter
            (fun b => (diffValsAt SDate.monthB k (r0 :: rest)
              (minBucket SDate.monthB r0 rest) b).all Option.isSome)).Nodup :=
        (List.filter_sublist _).nodup (List.nodup_range' _ _)
      have hsub : ((List.range' (minBucket SDate.monthB r0 rest)
          (maxBucket SDate.monthB r0 rest + 1 - minBucket SDate.monthB r0 rest)).filter
            (fun b => (diffValsAt SDate.monthB k (r0 :: rest)
              (minBucket SDate.monthB r0 rest) b).all Option.isSome)).toFinset ⊆
          ((dropnaDates rows).map (fun r => r.1.month)).toFinset.erase
            (minBucket SDate.monthB r0 rest) := by
        intro b hb
        obtain ⟨hmem, hlt⟩ := hbfacts b (List.mem_toFinset.mp hb)
        exact Finset.mem_erase.mpr ⟨by omega, List.mem_toFinset.mpr hmem⟩
      calc ((List.range' (minBucket SDate.monthB r0 rest)
              (maxBucket SDate.monthB r0 rest + 1 - minBucket SDate.monthB r0 rest)).filter
                (fun b => (diffValsAt SDate.monthB k (r0 :: rest)
                  (minBucket SDate.monthB r0 rest) b).all Option.isSome)).length
          = ((List.range' (minBucket SDate.monthB r0 rest)
              (maxBucket SDate.monthB r0 rest + 1 - minBucket SDate.monthB r0 rest)).filter
                (fun b => (diffValsAt SDate.monthB k (r0 :: rest)
                  (minBucket SDate.monthB r0 rest) b).all Option.isSome)).toFinset.card :=
            (List.toFinset_card_of_nodup hnodup).symm
        _ ≤ (((dropnaDates rows).map (fun r => r.1.month)).toFinset.erase
              (minBucket SDate.monthB r0 rest)).card := Finset.card_le_card hsub
        _ = ((dropnaDates rows).map (fun r => r.1.month)).toFinset.card - 1 :=
            Finset.card_erase_of_mem (List.mem_toFinset.mpr hBmem)
        _ = distinctMonthCount rows - 1 := by rw [List.card_toFinset]; rfl
    · intro p hp
      obtain ⟨b, hbf, hfb⟩ := List.mem_map.mp hp
      obtain ⟨hmem, hlt⟩ := hbfacts b hbf
      have hp1 : p.1 = b := by rw [← hfb]
      refine ⟨hp1 ▸ hmem, minBucket SDate.monthB r0 rest, hBmem, hp1 ▸ hlt⟩

theorem monthlyChange_bound_witness :
    (applyTransformChange SDate.monthB 1
        [(some ⟨0, 1⟩, [some 2]), (some ⟨1, 1⟩, [some 7])]).length ≤
      distinctMonthCount [(some ⟨0, 1⟩, [some 2]), (some ⟨1, 1⟩, [some 7])] - 1 :=
  (monthlyChange_bound 1 [(some ⟨0, 1⟩, [some 2]), (some ⟨1, 1⟩, [some 7])]
    (by decide)).1

end ImpulseOverlay
